import Mathlib

/-!
# local-files: archive extraction and creation, copy, move and delete of local files

A shallow embedding of `local-files.go` (package `localfiles`).

The five exported Go functions (`Unzip`, `ZipFiles` with `addFileToZip`, `MoveFile`,
`CopyFile`, `DeleteFile`) are translated statement by statement into functions that
thread an explicit `World` (the file system seen by the process, the umask, the text
written to standard output and standard error).

The standard-library calls they make (`os`, `io`, `path/filepath`, `archive/zip`) are
modelled in the first part of the file:

* what depends on the platform (path separator, `filepath.VolumeName`, `filepath.Join`,
  base names, and which file a path name denotes) is a parameter, `Platform`; `unix` is the
  instance for slash-separated paths, with `filepath.Clean` and `filepath.Join` written out,
  and `drives` is a minimal instance with drive prefixes, where backslash separates;
* a file system is a map from resolved names to nodes (a regular file with its data and
  permission bits, or a directory with its permission bits); symbolic and hard links and
  the names below a renamed directory are not modelled;
* every call can fail for reasons the model does not determine (permissions, full disk,
  I/O errors, another process): `World.fault` gives, for each kind of call and each path
  name, the error that call meets, if any. Theorems are stated for every fault plan;
* the archive format is not modelled byte by byte: the data of a file is either plain
  bytes or an archive, which is a list of entries and a flag telling whether the central
  directory has been written.
-/

namespace LocalFiles

/-! ## Errors -/

/-- System error numbers that the modelled calls report. -/
inductive Errno where
  | ENOENT | EEXIST | EISDIR | ENOTDIR | EACCES | ENOSPC | EINVAL | EBADF | ENAMETOOLONG | EXDEV
  deriving DecidableEq, Repr

/-- Text of a system error number (`syscall.Errno.Error`). -/
def Errno.Error : Errno → String
  | .ENOENT => "no such file or directory"
  | .EEXIST => "file exists"
  | .EISDIR => "is a directory"
  | .ENOTDIR => "not a directory"
  | .EACCES => "permission denied"
  | .ENOSPC => "no space left on device"
  | .EINVAL => "invalid argument"
  | .EBADF => "bad file descriptor"
  | .ENAMETOOLONG => "file name too long"
  | .EXDEV => "invalid cross-device link"

/-- Values of the Go interface `error` that this package meets. -/
inductive GoError where
  /-- An `*fs.PathError`. -/
  | path (op : String) (path : String) (err : Errno)
  /-- An `*os.LinkError`. -/
  | link (op : String) (old : String) (new : String) (err : Errno)
  /-- The value `zip.ErrFormat`. -/
  | zipFormat
  /-- The value `io.ErrUnexpectedEOF`. -/
  | unexpectedEOF
  /-- The error `zip: write to directory`. -/
  | zipWriteToDirectory
  /-- An error made by `fmt.Errorf`, which keeps only a text. -/
  | errorf (text : String)
  deriving DecidableEq, Repr

/-- The method `Error()` of an error value. -/
def GoError.Error : GoError → String
  | .path op p e => op ++ " " ++ p ++ ": " ++ e.Error
  | .link op o n e => op ++ " " ++ o ++ " " ++ n ++ ": " ++ e.Error
  | .zipFormat => "zip: not a valid zip file"
  | .unexpectedEOF => "unexpected EOF"
  | .zipWriteToDirectory => "zip: write to directory"
  | .errorf t => t

/-- The function `os.IsNotExist`: it looks inside path and link errors only. -/
def IsNotExist : GoError → Bool
  | .path _ _ e => decide (e = .ENOENT)
  | .link _ _ _ e => decide (e = .ENOENT)
  | _ => false

/-! ## Path names -/

/-- Cut a character sequence at every slash (`strings.Split(s, "/")`). -/
def splitSlash : List Char → List (List Char)
  | [] => [[]]
  | c :: cs =>
    if c = '/' then [] :: splitSlash cs
    else
      match splitSlash cs with
      | [] => [[c]]
      | x :: xs => (c :: x) :: xs

/-- Put slashes between the elements (`strings.Join(xs, "/")`). -/
def joinSlash : List (List Char) → List Char
  | [] => []
  | [x] => x
  | x :: y :: r => x ++ '/' :: joinSlash (y :: r)

/-- One step of `filepath.Clean` on the elements kept so far: empty elements and `.` are
dropped, `..` removes the last kept element when there is one that is not itself `..`,
is dropped at the root of a rooted path, and is kept otherwise. -/
def cleanStep (rooted : Bool) (stack : List (List Char)) (c : List Char) : List (List Char) :=
  if c = [] ∨ c = ['.'] then stack
  else if c = ['.', '.'] then
    match stack.getLast? with
    | some top => if top = ['.', '.'] then stack ++ [c] else stack.dropLast
    | none => if rooted then stack else stack ++ [c]
  else stack ++ [c]

/-- The elements that `filepath.Clean` keeps. -/
def cleanElems (cs : List Char) : List (List Char) :=
  (splitSlash cs).foldl (cleanStep (decide (cs.head? = some '/'))) []

/-- The function `filepath.Clean` for slash-separated paths without volume names. -/
def Clean (path : String) : String :=
  if path.data.head? = some '/' then ⟨'/' :: joinSlash (cleanElems path.data)⟩
  else if cleanElems path.data = [] then "."
  else ⟨joinSlash (cleanElems path.data)⟩

/-- The function `filepath.Join` of two elements for slash-separated paths: empty
elements before the first non-empty one are ignored and the result is cleaned. -/
def Join (a b : String) : String :=
  if a ≠ "" then Clean (a ++ "/" ++ b)
  else if b ≠ "" then Clean b
  else ""

/-- The function `filepath.Base` for slash-separated paths. -/
def Base (path : String) : String :=
  if path = "" then "."
  else
    let cs := (path.data.reverse.dropWhile (fun c => c = '/')).reverse
    match (splitSlash cs).getLast? with
    | some (c :: r) => ⟨c :: r⟩
    | _ => "/"

/-- Index of the last occurrence of a character, counted from the start. -/
def lastIndexFrom (c : Char) : List Char → Nat → Option Nat → Option Nat
  | [], _, acc => acc
  | x :: xs, i, acc => lastIndexFrom c xs (i + 1) (if x = c then some i else acc)

/-- The function `strings.LastIndex` for a one-character separator; `-1` when absent. -/
def LastIndex (s : String) (sep : Char) : Int :=
  match lastIndexFrom sep s.data 0 none with
  | some i => (i : Int)
  | none => -1

/-- The slice `s[:n]`. -/
def sliceTo (s : String) (n : Nat) : String := ⟨s.data.take n⟩

/-- The test `strings.HasSuffix(s, "/")`. -/
def endsWithSlash (s : String) : Bool := decide (s.data.getLast? = some '/')

/-- What the code takes from the platform it runs on. -/
structure Platform where
  /-- The constant `os.PathSeparator`. -/
  pathSeparator : Char
  /-- The function `filepath.VolumeName`. -/
  volumeName : String → String
  /-- The function `filepath.Join` of two elements. -/
  join : String → String → String
  /-- The base name that `Stat` reports for a path name. -/
  base : String → String
  /-- The resolved name of the file that a path name denotes: two path names denote the
  same file exactly when their resolved names are equal. -/
  resolve : String → String

/-- A Unix platform: slash-separated paths, no volume names, a path name denotes the file
named by its cleaned form. -/
def unix : Platform where
  pathSeparator := '/'
  volumeName := fun _ => ""
  join := Join
  base := Base
  resolve := Clean

/-- The drive prefix of a path name such as `C:` in `C:\a.txt`, empty when there is none. -/
def driveOf (s : String) : String :=
  match s.data with
  | d :: ':' :: _ => ⟨[d, ':']⟩
  | _ => ""

/-- The base name after the last backslash. -/
def baseBackslash (s : String) : String :=
  match lastIndexFrom '\\' s.data 0 none with
  | some i => ⟨s.data.drop (i + 1)⟩
  | none => s

/-- Cut a character sequence at every backslash and every slash. -/
def splitSeps : List Char → List (List Char)
  | [] => [[]]
  | c :: cs =>
    if c = '\\' ∨ c = '/' then [] :: splitSeps cs
    else
      match splitSeps cs with
      | [] => [[c]]
      | x :: xs => (c :: x) :: xs

/-- Put backslashes between the elements. -/
def joinBackslash : List (List Char) → List Char
  | [] => []
  | [x] => x
  | x :: y :: r => x ++ '\\' :: joinBackslash (y :: r)

/-- The elements that `filepath.Clean` keeps where backslash and slash both separate. -/
def cleanElemsBackslash (cs : List Char) : List (List Char) :=
  (splitSeps cs).foldl (cleanStep (decide (cs.head? = some '\\' ∨ cs.head? = some '/'))) []

/-- The function `filepath.Clean` where backslash and slash both separate, for paths
without a drive prefix. -/
def CleanBackslash (path : String) : String :=
  if path.data.head? = some '\\' ∨ path.data.head? = some '/' then
    ⟨'\\' :: joinBackslash (cleanElemsBackslash path.data)⟩
  else if cleanElemsBackslash path.data = [] then "."
  else ⟨joinBackslash (cleanElemsBackslash path.data)⟩

/-- The function `filepath.Join` of two elements where backslash and slash both separate,
for paths without a drive prefix. -/
def JoinBackslash (a b : String) : String :=
  if a ≠ "" then CleanBackslash (a ++ "\\" ++ b)
  else if b ≠ "" then CleanBackslash b
  else ""

/-- A minimal platform with drive letters: backslash and slash both separate, the volume
name of a path name is its textual drive prefix, a path name without a drive prefix denotes
the file of that name in the current directory `C:\cwd`, and a path name with a drive prefix
is taken verbatim as the name of a file. -/
def drives : Platform where
  pathSeparator := '\\'
  volumeName := driveOf
  join := JoinBackslash
  base := baseBackslash
  resolve := fun s => if driveOf s = "" then "C:\\cwd\\" ++ s else s

/-! ## Files, archives and the world -/

/-- The fields of `zip.FileHeader` that the code uses. -/
structure FileHeader where
  /-- The field `Name`. -/
  name : String
  /-- Permission bits kept in the external attributes. -/
  perm : Nat
  /-- Whether the stored mode has the directory bit. -/
  dirBit : Bool
  /-- The field `Method`: 0 is `zip.Store`, 8 is `zip.Deflate`. -/
  method : Nat
  deriving DecidableEq, Repr

/-- One entry of an archive: its header and its uncompressed data. -/
structure ZipEntry (γ : Type) where
  /-- The header of the entry. -/
  header : FileHeader
  /-- The uncompressed data of the entry. -/
  data : γ

/-- Data of a regular file: plain bytes, or an archive with its entries in order and a
flag telling whether it was finalised (central directory written). -/
inductive Content where
  | bytes (b : List Nat)
  | archive (entries : List (ZipEntry Content)) (finalised : Bool)

/-- An archive entry. -/
abbrev Entry := ZipEntry Content

/-- The constant `zip.Store`. -/
def Store : Nat := 0

/-- The constant `zip.Deflate`. -/
def Deflate : Nat := 8

/-- A node of the file system. -/
inductive Node where
  | file (data : Content) (perm : Nat)
  | dir (perm : Nat)

/-- Kinds of calls that can meet an error that the file system model does not determine. -/
inductive Op where
  | openRead | openWrite | read | write | close | stat | chmod | remove | rename | mkdir
  | zipOpenReader | zipEntryOpen | zipEntryRead | zipCreateHeader | zipClose
  deriving DecidableEq, Repr

/-- The state of the world around one call. -/
structure World where
  /-- Nodes by resolved name. -/
  fs : String → Option Node
  /-- The file mode creation mask of the process. -/
  umask : Nat
  /-- Errors that calls meet for outside reasons, by kind of call and path name. -/
  fault : Op → String → Option Errno
  /-- Lines written to standard output. -/
  stdout : List String
  /-- Lines written to standard error. -/
  stderr : List String

/-- Replace what one resolved name holds. -/
def World.put (w : World) (k : String) (n : Option Node) : World :=
  { w with fs := fun q => if q = k then n else w.fs q }

/-- Replace the data of the regular file at a resolved name, keeping its permission bits. -/
def World.putData (w : World) (k : String) (d : Content) : World :=
  match w.fs k with
  | some (.file _ m) => w.put k (some (.file d m))
  | _ => w

/-- The function `fmt.Println` (and `fmt.Printf`) with the text already formatted. -/
def World.println (w : World) (s : String) : World :=
  { w with stdout := w.stdout ++ [s] }

/-- Permission bits left by the umask. -/
def World.masked (w : World) (perm : Nat) : Nat := perm ^^^ (perm &&& w.umask)

/-- An open `*os.File`: the model keeps the name it was opened with. -/
structure File where
  name : String
  deriving DecidableEq, Repr

/-- The part of `fs.FileInfo` that the code uses. -/
structure FileInfo where
  name : String
  isDir : Bool
  perm : Nat
  deriving DecidableEq, Repr

/-- Flags of `os.OpenFile` that the code uses. -/
structure OpenFlags where
  /-- Opened for writing (`O_WRONLY` or `O_RDWR`). -/
  write : Bool
  /-- The flag `O_CREATE`. -/
  create : Bool
  /-- The flag `O_TRUNC`. -/
  trunc : Bool
  deriving DecidableEq, Repr

/-- The flag `os.O_RDONLY`. -/
def O_RDONLY : OpenFlags := ⟨false, false, false⟩

/-- The flag `os.O_RDWR`. -/
def O_RDWR : OpenFlags := ⟨true, false, false⟩

/-- The flags `os.O_WRONLY|os.O_CREATE|os.O_TRUNC`. -/
def O_WRONLY_CREATE_TRUNC : OpenFlags := ⟨true, true, true⟩

/-- The flags `os.O_RDWR|os.O_CREATE|os.O_TRUNC` that `os.Create` uses. -/
def O_RDWR_CREATE_TRUNC : OpenFlags := ⟨true, true, true⟩

/-! ## The package `os` -/

/-- The function `os.OpenFile`. The empty name and a missing file opened without
`O_CREATE` give `ENOENT`, a directory opened for writing gives `EISDIR`; a missing file
opened with `O_CREATE` is created empty with the permission bits left by the umask; an
existing regular file opened with `O_TRUNC` is emptied and keeps its permission bits. -/
def OpenFile (P : Platform) (w : World) (name : String) (flag : OpenFlags) (perm : Nat) :
    Except GoError File × World :=
  if name = "" then (.error (.path "open" name .ENOENT), w)
  else
    match w.fault (if flag.write then .openWrite else .openRead) name with
    | some e => (.error (.path "open" name e), w)
    | none =>
      match w.fs (P.resolve name) with
      | none =>
        if flag.create then
          (.ok ⟨name⟩, w.put (P.resolve name) (some (.file (.bytes []) (w.masked perm))))
        else (.error (.path "open" name .ENOENT), w)
      | some (.dir _) =>
        if flag.write then (.error (.path "open" name .EISDIR), w) else (.ok ⟨name⟩, w)
      | some (.file _ m) =>
        if flag.write && flag.trunc then
          (.ok ⟨name⟩, w.put (P.resolve name) (some (.file (.bytes []) m)))
        else (.ok ⟨name⟩, w)

/-- The function `os.Open`. -/
def Open (P : Platform) (w : World) (name : String) : Except GoError File × World :=
  OpenFile P w name O_RDONLY 0

/-- The function `os.Create`. -/
def Create (P : Platform) (w : World) (name : String) : Except GoError File × World :=
  OpenFile P w name O_RDWR_CREATE_TRUNC 0o666

/-- The method `(*os.File).Close`. -/
def File.Close (w : World) (f : File) : Option GoError :=
  match w.fault .close f.name with
  | some e => some (.path "close" f.name e)
  | none => none

/-- The function `os.Stat` (and `(*os.File).Stat`, `os.Lstat`: links are not modelled). -/
def Stat (P : Platform) (w : World) (name : String) : Except GoError FileInfo :=
  if name = "" then .error (.path "stat" name .ENOENT)
  else
    match w.fault .stat name with
    | some e => .error (.path "stat" name e)
    | none =>
      match w.fs (P.resolve name) with
      | none => .error (.path "stat" name .ENOENT)
      | some (.dir m) => .ok ⟨P.base name, true, m⟩
      | some (.file _ m) => .ok ⟨P.base name, false, m⟩

/-- The function `os.Chmod`. -/
def Chmod (P : Platform) (w : World) (name : String) (perm : Nat) : Option GoError × World :=
  if name = "" then (some (.path "chmod" name .ENOENT), w)
  else
    match w.fault .chmod name with
    | some e => (some (.path "chmod" name e), w)
    | none =>
      match w.fs (P.resolve name) with
      | none => (some (.path "chmod" name .ENOENT), w)
      | some (.dir _) => (none, w.put (P.resolve name) (some (.dir perm)))
      | some (.file d _) => (none, w.put (P.resolve name) (some (.file d perm)))

/-- The function `os.Remove`. An outside error `ENOENT` stands for another process
having removed the file first, so the name is absent afterwards. -/
def Remove (P : Platform) (w : World) (name : String) : Option GoError × World :=
  if name = "" then (some (.path "remove" name .ENOENT), w)
  else
    match w.fault .remove name with
    | some e =>
      (some (.path "remove" name e), if e = .ENOENT then w.put (P.resolve name) none else w)
    | none =>
      match w.fs (P.resolve name) with
      | none => (some (.path "remove" name .ENOENT), w)
      | some _ => (none, w.put (P.resolve name) none)

/-- The function `os.Rename`. A missing source gives `ENOENT`; an existing directory as
the new name gives `EEXIST` unless both names denote it and differ as texts; a directory
renamed onto a regular file gives `ENOTDIR`; when both names denote the same file nothing
changes; otherwise the node moves to the new name, replacing what was there. The names
below a renamed directory are not modelled. -/
def Rename (P : Platform) (w : World) (oldname newname : String) : Option GoError × World :=
  if oldname = "" ∨ newname = "" then (some (.link "rename" oldname newname .ENOENT), w)
  else
    match w.fault .rename oldname with
    | some e => (some (.link "rename" oldname newname e), w)
    | none =>
      match w.fs (P.resolve oldname), w.fs (P.resolve newname) with
      | none, _ => (some (.link "rename" oldname newname .ENOENT), w)
      | some _, some (.dir _) =>
        if newname ≠ oldname ∧ P.resolve oldname = P.resolve newname then (none, w)
        else (some (.link "rename" oldname newname .EEXIST), w)
      | some (.dir _), some (.file _ _) =>
        (some (.link "rename" oldname newname .ENOTDIR), w)
      | some n, _ =>
        if P.resolve oldname = P.resolve newname then (none, w)
        else (none, (w.put (P.resolve newname) (some n)).put (P.resolve oldname) none)

/-- The function `os.Mkdir`. -/
def Mkdir (P : Platform) (w : World) (name : String) (perm : Nat) : Option GoError × World :=
  if name = "" then (some (.path "mkdir" name .ENOENT), w)
  else
    match w.fault .mkdir name with
    | some e => (some (.path "mkdir" name e), w)
    | none =>
      match w.fs (P.resolve name) with
      | some _ => (some (.path "mkdir" name .EEXIST), w)
      | none => (none, w.put (P.resolve name) (some (.dir (w.masked perm))))

/-- Length of the path without trailing separators. -/
def skipTrailingSeparators (sep : Char) (cs : List Char) : Nat :=
  (cs.reverse.dropWhile (fun c => c = sep)).length

/-- Start index of the last element of `cs[:i]`. -/
def scanBackElement (sep : Char) (cs : List Char) (i : Nat) : Nat :=
  (((cs.take i).reverse.dropWhile (fun c => c ≠ sep))).length

/-- The function `os.MkdirAll`, with the recursion of the library bounded by `fuel`:
if the path is a directory it succeeds, if it is another file it fails with `ENOTDIR`;
otherwise the parent (the path without its trailing separators and last element) is
created first when it is longer than one character, then the directory itself; a failing
`Mkdir` is tolerated when the directory exists after all. -/
def MkdirAllAux (P : Platform) (perm : Nat) : Nat → World → String → Option GoError × World
  | 0, w, path => (some (.path "mkdir" path .ENAMETOOLONG), w)
  | fuel + 1, w, path =>
    match Stat P w path with
    | .ok dir =>
      if dir.isDir then (none, w) else (some (.path "mkdir" path .ENOTDIR), w)
    | .error _ =>
      let i := skipTrailingSeparators P.pathSeparator path.data
      let j := scanBackElement P.pathSeparator path.data i
      match (if j > 1 then MkdirAllAux P perm fuel w (sliceTo path (j - 1)) else (none, w)) with
      | (some err, w1) => (some err, w1)
      | (none, w1) =>
        match Mkdir P w1 path perm with
        | (none, w2) => (none, w2)
        | (some err, w2) =>
          match Stat P w2 path with
          | .ok dir1 => if dir1.isDir then (none, w2) else (some err, w2)
          | .error _ => (some err, w2)

/-- The function `os.MkdirAll`: the recursion shortens the path at every step, so the
length of the path bounds its depth. -/
def MkdirAll (P : Platform) (w : World) (path : String) (perm : Nat) : Option GoError × World :=
  MkdirAllAux P perm (path.length + 1) w path

/-! ## The package `io` -/

/-- The function `io.Copy` between two open files: the data of the source, read now, becomes
the data of the destination. A directory cannot be read (`EISDIR`). When the copy fails the
destination is left as it was (how much was written before the failure is not modelled). -/
def ioCopy (P : Platform) (w : World) (dst src : File) : Option GoError × World :=
  match w.fault .read src.name with
  | some e => (some (.path "read" src.name e), w)
  | none =>
    match w.fs (P.resolve src.name) with
    | none => (some (.path "read" src.name .EBADF), w)
    | some (.dir _) => (some (.path "read" src.name .EISDIR), w)
    | some (.file d _) =>
      match w.fault .write dst.name with
      | some e => (some (.path "write" dst.name e), w)
      | none =>
        match w.fs (P.resolve dst.name) with
        | some (.file _ _) => (none, w.putData (P.resolve dst.name) d)
        | _ => (some (.path "write" dst.name .EBADF), w)

/-! ## The package `archive/zip` -/

/-- An open `*zip.ReadCloser`: the archive it reads and the entries listed in its central
directory (the field `File`). -/
structure ZipReader where
  name : String
  File : List Entry

/-- The function `zip.OpenReader`: only a regular file holding a finalised archive can be
opened; other regular files give `zip.ErrFormat`. -/
def zipOpenReader (P : Platform) (w : World) (name : String) : Except GoError ZipReader :=
  if name = "" then .error (.path "open" name .ENOENT)
  else
    match w.fault .zipOpenReader name with
    | some e => .error (.path "open" name e)
    | none =>
      match w.fs (P.resolve name) with
      | none => .error (.path "open" name .ENOENT)
      | some (.dir _) => .error (.path "read" name .EISDIR)
      | some (.file (.archive es true) _) => .ok ⟨name, es⟩
      | some (.file _ _) => .error .zipFormat

/-- Whether the archive file still holds a finalised archive: the reader reads entries
lazily from the open file, so it fails once that file has been emptied. -/
def archiveIntact (P : Platform) (w : World) (name : String) : Bool :=
  match w.fs (P.resolve name) with
  | some (.file (.archive _ true) _) => true
  | _ => false

/-- The method `(*zip.File).FileInfo().IsDir()`: the directory bit of the stored mode, or
a name that ends with a slash. -/
def FileHeader.IsDir (h : FileHeader) : Bool := h.dirBit || endsWithSlash h.name

/-- The method `(*zip.File).Mode()`, permission bits only. -/
def FileHeader.Mode (h : FileHeader) : Nat := h.perm

/-- An open reader of the data of one entry. -/
structure EntryReader where
  archive : String
  entry : Entry

/-- The method `(*zip.File).Open`. -/
def zipEntryOpen (P : Platform) (w : World) (r : ZipReader) (f : Entry) :
    Except GoError EntryReader :=
  match w.fault .zipEntryOpen f.header.name with
  | some e => .error (.path "read" r.name e)
  | none => if archiveIntact P w r.name then .ok ⟨r.name, f⟩ else .error .unexpectedEOF

/-- The function `io.Copy` from an entry reader to an open file. -/
def ioCopyFromEntry (P : Platform) (w : World) (dst : File) (rc : EntryReader) :
    Option GoError × World :=
  match w.fault .zipEntryRead rc.entry.header.name with
  | some e => (some (.path "read" rc.archive e), w)
  | none =>
    if archiveIntact P w rc.archive then
      match w.fault .write dst.name with
      | some e => (some (.path "write" dst.name e), w)
      | none =>
        match w.fs (P.resolve dst.name) with
        | some (.file _ _) => (none, w.putData (P.resolve dst.name) rc.entry.data)
        | _ => (some (.path "write" dst.name .EBADF), w)
    else (some .unexpectedEOF, w)

/-- A `*zip.Writer`: the file it writes to and the entries written so far. What has been
written is visible in the file at once, as an archive that is not finalised. -/
structure ZipWriter where
  file : File
  dir : List Entry

/-- The function `zip.NewWriter`. -/
def NewWriter (f : File) : ZipWriter := ⟨f, []⟩

/-- The function `zip.FileInfoHeader`: the name is the base name, with a slash appended
for a directory; the method is left at `Store`. Its error result is always nil. -/
def FileInfoHeader (fi : FileInfo) : FileHeader :=
  { name := if fi.isDir then fi.name ++ "/" else fi.name
    perm := fi.perm
    dirBit := fi.isDir
    method := Store }

/-- The writer that `CreateHeader` returns: a file writer, or a directory writer that
accepts no data. -/
structure EntryWriter where
  isDir : Bool

/-- The method `(*zip.Writer).CreateHeader`: a header whose name ends with a slash gets
the method `Store`; the entry is added with no data yet. -/
def CreateHeader (P : Platform) (w : World) (zw : ZipWriter) (fh : FileHeader) :
    Except GoError EntryWriter × ZipWriter × World :=
  match w.fault .zipCreateHeader zw.file.name with
  | some e => (.error (.path "write" zw.file.name e), zw, w)
  | none =>
    let fh1 : FileHeader := if endsWithSlash fh.name then { fh with method := Store } else fh
    let dir1 : List Entry := zw.dir ++ [⟨fh1, .bytes []⟩]
    (.ok ⟨endsWithSlash fh.name⟩, ⟨zw.file, dir1⟩,
      w.putData (P.resolve zw.file.name) (.archive dir1 false))

/-- Replace the data of the last entry. -/
def setLastData (es : List Entry) (d : Content) : List Entry :=
  match es.getLast? with
  | some e => es.dropLast ++ [⟨e.header, d⟩]
  | none => es

/-- The function `io.Copy` from an open file to the writer of the current entry. -/
def ioCopyToEntry (P : Platform) (w : World) (zw : ZipWriter) (ew : EntryWriter) (src : File) :
    Option GoError × ZipWriter × World :=
  match w.fault .read src.name with
  | some e => (some (.path "read" src.name e), zw, w)
  | none =>
    match w.fs (P.resolve src.name) with
    | none => (some (.path "read" src.name .EBADF), zw, w)
    | some (.dir _) => (some (.path "read" src.name .EISDIR), zw, w)
    | some (.file d _) =>
      if ew.isDir then
        match d with
        | .bytes [] => (none, zw, w)
        | _ => (some .zipWriteToDirectory, zw, w)
      else
        match w.fault .write zw.file.name with
        | some e => (some (.path "write" zw.file.name e), zw, w)
        | none =>
          (none, ⟨zw.file, setLastData zw.dir d⟩,
            w.putData (P.resolve zw.file.name) (.archive (setLastData zw.dir d) false))

/-- The method `(*zip.Writer).Close`: it writes the central directory, which finalises
the archive. -/
def ZipWriter.Close (P : Platform) (w : World) (zw : ZipWriter) : Option GoError × World :=
  match w.fault .zipClose zw.file.name with
  | some e => (some (.path "write" zw.file.name e), w)
  | none => (none, w.putData (P.resolve zw.file.name) (.archive zw.dir true))

/-! ## The package `log` -/

/-- How a call ends: it returns its error result, or the process is terminated. -/
inductive Outcome where
  | returned (err : Option GoError)
  | exited (code : Nat)
  deriving DecidableEq, Repr

/-- The output of `log.Fatal(err)`; the caller then ends with `os.Exit(1)`. -/
def logFatal (w : World) (err : GoError) : World :=
  { w with stderr := w.stderr ++ [err.Error] }

/-! ## The functions of `local-files.go` -/

/-- The body of the loop `for _, f := range r.File` of `Unzip`. The deferred closes run
when `Unzip` returns and their results are dropped. -/
def unzipLoop (P : Platform) (r : ZipReader) (dest : String) : World → List Entry → Outcome × World
  | w, [] => (.returned none, w)
  | w, f :: rest =>
    match zipEntryOpen P w r f with
    | .error err => (.returned (some err), w)
    | .ok rc =>
      let fpath := P.join dest f.header.name
      if f.header.IsDir then
        unzipLoop P r dest (MkdirAll P w fpath f.header.Mode).2 rest
      else
        let lastIndex := LastIndex fpath P.pathSeparator
        let fdir := if lastIndex > -1 then sliceTo fpath lastIndex.toNat else ""
        match MkdirAll P w fdir f.header.Mode with
        | (some err, w1) => (.exited 1, logFatal w1 err)
        | (none, w1) =>
          match OpenFile P w1 fpath O_WRONLY_CREATE_TRUNC f.header.Mode with
          | (.error err, w2) => (.returned (some err), w2)
          | (.ok out, w2) =>
            match ioCopyFromEntry P w2 out rc with
            | (some err, w3) => (.returned (some err), w3)
            | (none, w3) => unzipLoop P r dest w3 rest

/-- The function `Unzip`. -/
def Unzip (P : Platform) (w : World) (src dest : String) : Outcome × World :=
  match zipOpenReader P w src with
  | .error err => (.returned (some err), w)
  | .ok r => unzipLoop P r dest w r.File

/-- The function `addFileToZip`. -/
def addFileToZip (P : Platform) (w : World) (zipWriter : ZipWriter) (filename : String) :
    Option GoError × ZipWriter × World :=
  match Open P w filename with
  | (.error err, w1) => (some err, zipWriter, w1)
  | (.ok fileToZip, w1) =>
    match Stat P w1 fileToZip.name with
    | .error err => (some err, zipWriter, w1)
    | .ok info =>
      let header := FileInfoHeader info
      let header := { header with method := Deflate }
      match CreateHeader P w1 zipWriter header with
      | (.error err, zw, w2) => (some err, zw, w2)
      | (.ok writer, zw, w2) => ioCopyToEntry P w2 zw writer fileToZip

/-- The loop `for _, file := range files` of `ZipFiles`. -/
def zipFilesLoop (P : Platform) : World → ZipWriter → List String → Option GoError × ZipWriter × World
  | w, zipWriter, [] => (none, zipWriter, w)
  | w, zipWriter, file :: rest =>
    match addFileToZip P w zipWriter file with
    | (some err, zw, w1) => (some err, zw, w1)
    | (none, zw, w1) => zipFilesLoop P w1 zw rest

/-- The function `ZipFiles`. The two deferred closes run on every return after the
creation of the output, first the archive writer and then the file; the code drops
their results. -/
def ZipFiles (P : Platform) (w : World) (filename : String) (files : List String) :
    Option GoError × World :=
  match Create P w filename with
  | (.error err, w1) => (some err, w1)
  | (.ok newZipFile, w1) =>
    match zipFilesLoop P w1 (NewWriter newZipFile) files with
    | (err, zipWriter, w2) => (err, (zipWriter.Close P w2).2)

/-- The function `CopyFile`. -/
def CopyFile (P : Platform) (w : World) (src dst : String) : Option GoError × World :=
  match Open P w src with
  | (r, w0) =>
    let w1 := w0.println (src ++ " --->>> " ++ dst)
    match r with
    | .error err => (some err, w1.println err.Error)
    | .ok sourcefile =>
      match Create P w1 dst with
      | (.error err, w2) => (some err, w2.println err.Error)
      | (.ok destfile, w2) =>
        match ioCopy P w2 destfile sourcefile with
        | (err, w3) =>
          let closeErr := destfile.Close w3
          let err := match err with
            | none => closeErr
            | some e => some e
          match err with
          | some e => (some e, w3.println e.Error)
          | none =>
            match Stat P w3 src with
            | .ok sourceinfo => Chmod P w3 dst sourceinfo.perm
            | .error e => (some e, w3)

/-- The function `MoveFile`. -/
def MoveFile (P : Platform) (w : World) (src dst : String) : Option GoError × World :=
  if P.volumeName src = P.volumeName dst then
    match Rename P w src dst with
    | (some err, w1) => (some err, w1)
    | (none, w1) => (none, w1)
  else
    match OpenFile P w src O_RDWR 0o666 with
    | (.error err, w1) => (some err, w1)
    | (.ok f, w1) =>
      match f.Close w1 with
      | some err => (some err, w1)
      | none =>
        match CopyFile P w1 src dst with
        | (some err, w2) => (some err, w2)
        | (none, w2) =>
          match Remove P w2 src with
          | (some err, w3) =>
            if IsNotExist err then
              (none, w3.println "Файл перемещён, но удалить его не получилось: удалён кем-то ещё.")
            else
              (some (.errorf ("Файл перемещён. Но удалить его не получилось. " ++ err.Error)), w3)
          | (none, w3) => (none, w3)

/-- The function `DeleteFile`. -/
def DeleteFile (P : Platform) (w : World) (src : String) : Option GoError × World :=
  match OpenFile P w src O_RDWR 0o666 with
  | (.error err, w1) => (some err, w1)
  | (.ok f, w1) =>
    match f.Close w1 with
    | some err => (some err, w1)
    | none =>
      match Remove P w1 src with
      | (some err, w2) =>
        if IsNotExist err then
          (none, w2.println ("Файлa " ++ src ++
            " не существует, (неправильное имя или удалён кем-то ещё)."))
        else (some (.errorf (src ++ " -  удалить не получилось. " ++ err.Error)), w2)
      | (none, w2) => (none, w2)

/-! ## Lying under a directory -/

/-- Whether `path` is `dest` or lies below it, read off the cleaned forms of slash-separated
paths: both are rooted or both are not, the elements of `dest` begin the elements of
`path`, and the remaining elements do not climb with `..`. -/
def liesUnder (dest path : String) : Bool :=
  decide (dest.data.head? = some '/' ↔ path.data.head? = some '/') &&
  (cleanElems dest.data).isPrefixOf (cleanElems path.data) &&
  !((cleanElems path.data).drop (cleanElems dest.data).length).contains ['.', '.']

/-- Whether the cleaned elements of `a` begin those of `dest`, both being rooted or both
not: `a` is `dest` or a lexical ancestor of `dest`. -/
def beginsElems (a dest : String) : Bool :=
  decide (a.data.head? = some '/' ↔ dest.data.head? = some '/') &&
  (cleanElems a.data).isPrefixOf (cleanElems dest.data)

/-- The test `liesUnder` where backslash and slash both separate. -/
def liesUnderBackslash (dest path : String) : Bool :=
  decide ((dest.data.head? = some '\\' ∨ dest.data.head? = some '/') ↔
    (path.data.head? = some '\\' ∨ path.data.head? = some '/')) &&
  (cleanElemsBackslash dest.data).isPrefixOf (cleanElemsBackslash path.data) &&
  !((cleanElemsBackslash path.data).drop (cleanElemsBackslash dest.data).length).contains
    ['.', '.']

/-- One step of following a relative name from a directory: the elements kept below that
directory so far, or nothing once the name has climbed above it with `..`. -/
def relStep (st : Option (List (List Char))) (c : List Char) : Option (List (List Char)) :=
  match st with
  | none => none
  | some s =>
    if c = [] ∨ c = ['.'] then some s
    else if c = ['.', '.'] then (if s = [] then none else some s.dropLast)
    else some (s ++ [c])

/-- Whether a slash-separated name never climbs with `..` above the directory it starts
from: `a/../b.txt` and `/etc/passwd` do not, `../x` and `a/../../x` do. -/
def staysInside (name : String) : Bool :=
  ((splitSlash name.data).foldl relStep (some [])).isSome

/-- Whether `q` is `p` itself or what precedes one of the separators of `p`. -/
def isCutPrefix (sep : Char) (q p : String) : Bool :=
  decide (q = p) || (q.data ++ [sep]).isPrefixOf p.data

/-- What an extraction from the world `w` to the world `w1` made for the entry `e` at the
resolved name `k`: the file of a file entry at `filepath.Join(dest, name)`, or a new
directory, at a name that was free, at `filepath.Join(dest, name)` or at what precedes one
of its separators. -/
def madeFor (P : Platform) (w w1 : World) (dest : String) (e : Entry) (k : String) : Prop :=
  (e.header.IsDir = false ∧ k = P.resolve (P.join dest e.header.name)) ∨
  (w.fs k = none ∧ (∃ m, w1.fs k = some (.dir m)) ∧
    ∃ q, q ≠ "" ∧ isCutPrefix P.pathSeparator q (P.join dest e.header.name) = true ∧
      k = P.resolve q)

/-- An ordinary path element: not empty, not `.` and not `..`. -/
def plainElem (c : List Char) : Prop := c ≠ [] ∧ c ≠ ['.'] ∧ c ≠ ['.', '.']

/-- The shape of the elements that `Clean` keeps: some `..` (none when rooted) followed by
ordinary elements. -/
def Canon (rooted : Bool) (st : List (List Char)) : Prop :=
  ∃ k rest, st = List.replicate k ['.', '.'] ++ rest ∧ (∀ c ∈ rest, plainElem c) ∧
    (rooted = true → k = 0)

/-! ## Worlds that only gain directories -/

/-- The world `w1` differs from `w` at most by directories at names that were free. -/
def Grows (w w1 : World) : Prop :=
  w1.umask = w.umask ∧
  ∀ k, w1.fs k = w.fs k ∨ (w.fs k = none ∧ ∃ m, w1.fs k = some (.dir m))

/-- The data of the regular file at a resolved name, when there is one. -/
def dataAt (w : World) (k : String) : Option Content :=
  match w.fs k with
  | some (.file d _) => some d
  | _ => none

/-- The name of the file that `Unzip` writes for an entry. -/
def target (P : Platform) (dest : String) (e : Entry) : String :=
  P.resolve (P.join dest e.header.name)

/-- The entry that `ZipFiles` writes for a regular file with the given data and bits. -/
def entryFor (P : Platform) (file : String) (d : Content) (m : Nat) : Entry :=
  ⟨⟨P.base file, m, false, Deflate⟩, d⟩

/-- The entry that `ZipFiles` writes for an input file, read off the file system. -/
def entryOf (P : Platform) (w : World) (file : String) : Entry :=
  match w.fs (P.resolve file) with
  | some (.file d m) => entryFor P file d m
  | _ => entryFor P file (.bytes []) 0

/-! ## Sample worlds -/

/-- A world with no outside errors, umask `022`, and the given files. -/
def worldOf (fs : String → Option Node) : World :=
  { fs := fs, umask := 0o022, fault := fun _ _ => none, stdout := [], stderr := [] }

/-- A Unix directory holding `a.txt` (bytes 1, 2), the directory `d` with `d/a.txt`
(byte 3) and `d/b.txt` (bytes 4, 5), and the directory `out`. -/
def sampleFs : String → Option Node := fun q =>
  if q = "a.txt" then some (.file (.bytes [1, 2]) 0o644)
  else if q = "d" then some (.dir 0o755)
  else if q = "d/a.txt" then some (.file (.bytes [3]) 0o600)
  else if q = "d/b.txt" then some (.file (.bytes [4, 5]) 0o640)
  else if q = "out" then some (.dir 0o755)
  else none

/-- The sample Unix world. -/
def sampleWorld : World := worldOf sampleFs

/-- A Unix tree with two mounted file systems: `/mnt/usb`, holding `a.txt` (bytes 1, 2),
and `/home`. -/
def mountsFs : String → Option Node := fun q =>
  if q = "/mnt/usb" then some (.dir 0o755)
  else if q = "/mnt/usb/a.txt" then some (.file (.bytes [1, 2]) 0o644)
  else if q = "/home" then some (.dir 0o755)
  else none

/-- The world with two mounted file systems: renaming `/mnt/usb/a.txt` to a name on the
other file system fails with `EXDEV`. -/
def mountsWorld : World :=
  { worldOf mountsFs with
    fault := fun op name =>
      if op = .rename ∧ name = "/mnt/usb/a.txt" then some .EXDEV else none }

/-- The world with two mounted file systems where, in addition, opening `/mnt/usb/a.txt`
for writing is refused. -/
def mountsWorldDenied : World :=
  { worldOf mountsFs with
    fault := fun op name =>
      if op = .rename ∧ name = "/mnt/usb/a.txt" then some .EXDEV
      else if op = .openWrite ∧ name = "/mnt/usb/a.txt" then some .EACCES
      else none }

/-- A Unix directory holding `p.txt` (byte 5, mode 0666) and the directory `out`. -/
def modeFs : String → Option Node := fun q =>
  if q = "p.txt" then some (.file (.bytes [5]) 0o666)
  else if q = "out" then some (.dir 0o755)
  else none

/-- The sample world for permission bits, with umask `022`. -/
def modeWorld : World := worldOf modeFs

/-- An archive entry for a regular file with plain bytes. -/
def fileEntry (name : String) (perm : Nat) (b : List Nat) : Entry :=
  ⟨⟨name, perm, false, Deflate⟩, .bytes b⟩

/-- An archive entry for a directory. -/
def dirEntry (name : String) (perm : Nat) : Entry :=
  ⟨⟨name, perm, true, Store⟩, .bytes []⟩

/-- A Unix directory holding four finalised archives, the directory `out` and the regular
file `out/d`: `top.zip` has the single file entry `a.txt`; `tree.zip` has the directory
entry `d/` followed by the file entry `b.txt`; `deep.zip` has the file entry `d/x.txt`
followed by the file entry `b.txt`; `evil.zip` has the single file entry `../etc/passwd`. -/
def extractFs : String → Option Node := fun q =>
  if q = "top.zip" then some (.file (.archive [fileEntry "a.txt" 0o644 [1, 2]] true) 0o644)
  else if q = "tree.zip" then
    some (.file (.archive [dirEntry "d/" 0o755, fileEntry "b.txt" 0o644 [7]] true) 0o644)
  else if q = "deep.zip" then
    some (.file (.archive [fileEntry "d/x.txt" 0o644 [8], fileEntry "b.txt" 0o644 [7]] true) 0o644)
  else if q = "evil.zip" then
    some (.file (.archive [fileEntry "../etc/passwd" 0o644 [6, 6, 6]] true) 0o644)
  else if q = "out" then some (.dir 0o755)
  else if q = "out/d" then some (.file (.bytes [9]) 0o644)
  else none

/-- The sample world for extraction. -/
def extractWorld : World := worldOf extractFs

/-- A Unix tree with the directories `/` and `/tmp` and, in the current directory, the
directory `out` and three finalised archives: `abs.zip` has the single file entry
`/tmp/x.txt`; `tool.zip` has the single file entry `run.sh` (mode 0755); `mixed.zip` has
the directory entry `sub/` and the file entries `a/../b.txt`, `/opt/tool` (mode 0755) and
`../out/c.txt`. -/
def slipFs : String → Option Node := fun q =>
  if q = "/" then some (.dir 0o755)
  else if q = "/tmp" then some (.dir 0o777)
  else if q = "abs.zip" then
    some (.file (.archive [fileEntry "/tmp/x.txt" 0o644 [6, 6, 6]] true) 0o644)
  else if q = "tool.zip" then
    some (.file (.archive [fileEntry "run.sh" 0o755 [7]] true) 0o644)
  else if q = "mixed.zip" then
    some (.file (.archive [dirEntry "sub/" 0o755, fileEntry "a/../b.txt" 0o644 [1],
      fileEntry "/opt/tool" 0o755 [2], fileEntry "../out/c.txt" 0o644 [3]] true) 0o644)
  else if q = "out" then some (.dir 0o755)
  else none

/-- The sample Unix world for entry names. -/
def slipWorld : World := worldOf slipFs

/-- The current directory `C:\cwd` of the platform with drives, holding the directory `out`
and the finalised archive `back.zip`, whose single file entry is named `..\etc\passwd`. -/
def backslashFs : String → Option Node := fun q =>
  if q = "C:\\cwd\\back.zip" then
    some (.file (.archive [fileEntry "..\\etc\\passwd" 0o644 [6, 6, 6]] true) 0o644)
  else if q = "C:\\cwd\\out" then some (.dir 0o755)
  else none

/-- The sample world for entry names on the platform with drives. -/
def backslashWorld : World := worldOf backslashFs

/-- The sample Unix world on a full disk: writing the central directory of `out.zip`
fails for lack of space. -/
def fullDiskWorld : World :=
  { sampleWorld with
    fault := fun op name => if op = .zipClose ∧ name = "out.zip" then some .ENOSPC else none }

/-! ## Facts about the modelled calls -/

@[simp] theorem put_fs (w : World) (k : String) (n : Option Node) (q : String) :
    (w.put k n).fs q = if q = k then n else w.fs q := rfl

@[simp] theorem println_fs (w : World) (s : String) : (w.println s).fs = w.fs := rfl

@[simp] theorem println_fault (w : World) (s : String) : (w.println s).fault = w.fault := rfl

@[simp] theorem put_fault (w : World) (k : String) (n : Option Node) :
    (w.put k n).fault = w.fault := rfl

theorem putData_fault (w : World) (k : String) (d : Content) :
    (w.putData k d).fault = w.fault := by
  unfold World.putData
  split <;> rfl

theorem putData_fs_other (w : World) (k : String) (d : Content) (q : String) (h : q ≠ k) :
    (w.putData k d).fs q = w.fs q := by
  unfold World.putData
  split <;> simp [h]

theorem putData_fs_file (w : World) (k : String) (d d0 : Content) (m : Nat)
    (h : w.fs k = some (.file d0 m)) : (w.putData k d).fs k = some (.file d m) := by
  unfold World.putData
  rw [h]
  simp

/-- A file opened without `O_CREATE` and without `O_TRUNC` leaves the world as it is. -/
theorem OpenFile_plain_world (P : Platform) (w : World) (name : String) (wr : Bool) (perm : Nat) :
    (OpenFile P w name ⟨wr, false, false⟩ perm).2 = w := by
  unfold OpenFile
  split
  · rfl
  · split
    · rfl
    · split <;> simp
      split <;> rfl

theorem OpenFile_name (P : Platform) (w : World) (name : String) (flag : OpenFlags) (perm : Nat)
    (f : File) (h : (OpenFile P w name flag perm).1 = .ok f) : f = ⟨name⟩ := by
  unfold OpenFile at h
  split at h
  · simp at h
  · split at h
    · simp at h
    · split at h <;> split at h <;> simp at h <;> exact h.symm

theorem OpenFile_fs_other (P : Platform) (w : World) (name : String) (flag : OpenFlags)
    (perm : Nat) (q : String) (h : q ≠ P.resolve name) :
    (OpenFile P w name flag perm).2.fs q = w.fs q := by
  unfold OpenFile
  split
  · rfl
  · split
    · rfl
    · split <;> split <;> simp [h]

theorem ioCopy_fs_other (P : Platform) (w : World) (dst src : File) (q : String)
    (h : q ≠ P.resolve dst.name) : (ioCopy P w dst src).2.fs q = w.fs q := by
  unfold ioCopy
  split
  · rfl
  · split
    · rfl
    · rfl
    · split
      · rfl
      · split
        · exact putData_fs_other _ _ _ _ h
        · rfl

theorem Remove_fs_other (P : Platform) (w : World) (name : String) (q : String)
    (h : q ≠ P.resolve name) : (Remove P w name).2.fs q = w.fs q := by
  unfold Remove
  split
  · rfl
  · split
    · split <;> simp [h]
    · split <;> simp [h]

theorem OpenFile_create_trunc_ok (P : Platform) (w : World) (name : String) (perm : Nat)
    (f : File) (h : (OpenFile P w name ⟨true, true, true⟩ perm).1 = .ok f) :
    ∃ m, (OpenFile P w name ⟨true, true, true⟩ perm).2.fs (P.resolve name)
      = some (.file (.bytes []) m) := by
  unfold OpenFile at h ⊢
  by_cases h0 : name = ""
  · simp [h0] at h
  · cases h1 : w.fault .openWrite name with
    | some e => simp [h0, h1] at h
    | none =>
      cases h2 : w.fs (P.resolve name) with
      | none => simp [h0, h1, h2]
      | some n =>
        cases n with
        | dir m => simp [h0, h1, h2] at h
        | file d m => simp [h0, h1, h2]

theorem ioCopy_ok (P : Platform) (w : World) (dst src : File)
    (h : (ioCopy P w dst src).1 = none) :
    ∃ d m m1, w.fs (P.resolve src.name) = some (.file d m) ∧
      (ioCopy P w dst src).2.fs (P.resolve dst.name) = some (.file d m1) := by
  unfold ioCopy at h ⊢
  cases h0 : w.fault .read src.name with
  | some e => simp [h0] at h
  | none =>
    cases h1 : w.fs (P.resolve src.name) with
    | none => simp [h0, h1] at h
    | some n =>
      cases n with
      | dir m => simp [h0, h1] at h
      | file d m =>
        cases h2 : w.fault .write dst.name with
        | some e => simp [h0, h1, h2] at h
        | none =>
          cases h3 : w.fs (P.resolve dst.name) with
          | none => simp [h0, h1, h2, h3] at h
          | some n1 =>
            cases n1 with
            | dir m1 => simp [h0, h1, h2, h3] at h
            | file d1 m1 =>
              refine ⟨d, m, m1, rfl, ?_⟩
              simp only [h3]
              exact putData_fs_file _ _ _ _ _ h3

theorem Stat_ok (P : Platform) (w : World) (name : String) (info : FileInfo)
    (h : Stat P w name = .ok info) :
    (∃ d, w.fs (P.resolve name) = some (.file d info.perm)) ∨
      w.fs (P.resolve name) = some (.dir info.perm) := by
  unfold Stat at h
  by_cases h0 : name = ""
  · simp [h0] at h
  · cases h1 : w.fault .stat name with
    | some e => simp [h0, h1] at h
    | none =>
      cases h2 : w.fs (P.resolve name) with
      | none => simp [h0, h1, h2] at h
      | some n =>
        cases n with
        | dir m =>
          simp only [h0, h1, h2, if_false, Except.ok.injEq] at h
          subst h
          exact Or.inr rfl
        | file d m =>
          simp only [h0, h1, h2, if_false, Except.ok.injEq] at h
          subst h
          exact Or.inl ⟨d, rfl⟩

theorem Chmod_ok_file (P : Platform) (w : World) (name : String) (perm : Nat) (d : Content)
    (m : Nat) (hf : w.fs (P.resolve name) = some (.file d m))
    (h : (Chmod P w name perm).1 = none) :
    (Chmod P w name perm).2.fs (P.resolve name) = some (.file d perm) := by
  unfold Chmod at h ⊢
  by_cases h0 : name = ""
  · simp [h0] at h
  · cases h1 : w.fault .chmod name with
    | some e => simp [h0, h1] at h
    | none => simp [h0, h1, hf]

/-- A successful `CopyFile` between two different files: the source is a regular file and
the destination ends as a regular file with the same data and the same permission bits. -/
theorem CopyFile_ok (P : Platform) (w : World) (src dst : String)
    (hne : P.resolve src ≠ P.resolve dst) (h : (CopyFile P w src dst).1 = none) :
    ∃ d m, w.fs (P.resolve src) = some (.file d m) ∧
      (CopyFile P w src dst).2.fs (P.resolve dst) = some (.file d m) := by
  have hopen : (Open P w src).2 = w := OpenFile_plain_world P w src false 0
  unfold CopyFile at h ⊢
  rcases hO : Open P w src with ⟨r, w0⟩
  rw [hO] at hopen h
  simp only at hopen
  subst hopen
  cases r with
  | error err => simp at h
  | ok sourcefile =>
    have hsrc : sourcefile = ⟨src⟩ := by
      apply OpenFile_name P w0 src O_RDONLY 0
      unfold Open at hO
      rw [hO]
    subst hsrc
    simp only at h ⊢
    rcases hC : Create P (w0.println (src ++ " --->>> " ++ dst)) dst with ⟨rc, w2⟩
    rw [hC] at h
    have hw2 : w2.fs (P.resolve src) = w0.fs (P.resolve src) := by
      have := OpenFile_fs_other P (w0.println (src ++ " --->>> " ++ dst)) dst
        O_RDWR_CREATE_TRUNC 0o666 (P.resolve src) hne
      unfold Create at hC
      rw [hC] at this
      simpa using this
    cases rc with
    | error err => simp at h
    | ok destfile =>
      have hname : destfile = ⟨dst⟩ := by
        apply OpenFile_name P (w0.println (src ++ " --->>> " ++ dst)) dst O_RDWR_CREATE_TRUNC 0o666
        unfold Create at hC
        rw [hC]
      subst hname
      simp only at h ⊢
      rcases hI : ioCopy P w2 ⟨dst⟩ ⟨src⟩ with ⟨e, w3⟩
      rw [hI] at h
      have hw3 : w3.fs (P.resolve src) = w2.fs (P.resolve src) := by
        have := ioCopy_fs_other P w2 ⟨dst⟩ ⟨src⟩ (P.resolve src) hne
        rw [hI] at this
        exact this
      simp only at h ⊢
      cases e with
      | some e1 => simp at h
      | none =>
        obtain ⟨d, m, m1, hs, hd⟩ := ioCopy_ok P w2 ⟨dst⟩ ⟨src⟩ (by rw [hI])
        rw [hI] at hd
        simp only at hs hd
        simp only at h ⊢
        cases hcl : File.Close w3 ⟨dst⟩ with
        | some e2 => simp [hcl] at h
        | none =>
          simp only [hcl] at h ⊢
          cases hS : Stat P w3 src with
          | error e3 => simp [hS] at h
          | ok sourceinfo =>
            simp only [hS] at h ⊢
            have hsrc3 : w3.fs (P.resolve src) = some (.file d m) := by rw [hw3, hs]
            have hperm : sourceinfo.perm = m := by
              rcases Stat_ok P w3 src sourceinfo hS with ⟨d1, h1⟩ | h1
              · rw [hsrc3] at h1
                simp at h1
                exact h1.2.symm
              · rw [hsrc3] at h1
                simp at h1
            refine ⟨d, m, ?_, ?_⟩
            · rw [← hw2, hs]
            · rw [hperm] at h ⊢
              exact Chmod_ok_file P w3 dst m d m1 hd h

theorem Rename_ok (P : Platform) (w : World) (oldname newname : String)
    (hne : P.resolve oldname ≠ P.resolve newname) (h : (Rename P w oldname newname).1 = none) :
    ∃ n, w.fs (P.resolve oldname) = some n ∧
      (Rename P w oldname newname).2.fs (P.resolve newname) = some n ∧
      (Rename P w oldname newname).2.fs (P.resolve oldname) = none := by
  have hne1 : P.resolve newname ≠ P.resolve oldname := fun e => hne e.symm
  unfold Rename at h ⊢
  by_cases h0 : oldname = "" ∨ newname = ""
  · simp [h0] at h
  · cases h1 : w.fault .rename oldname with
    | some e => simp [h0, h1] at h
    | none =>
      cases h2 : w.fs (P.resolve oldname) with
      | none => simp [h0, h1, h2] at h
      | some n =>
        cases h3 : w.fs (P.resolve newname) with
        | none =>
          exact ⟨n, rfl, by simp [h0, h1, h2, h3, hne, hne1], by simp [h0, h1, h2, h3, hne]⟩
        | some n1 =>
          cases n1 with
          | dir m1 => simp [h0, h1, h2, h3, hne] at h
          | file d1 m1 =>
            cases n with
            | dir m => simp [h0, h1, h2, h3] at h
            | file d m =>
              exact ⟨_, rfl, by simp [h0, h1, h2, h3, hne, hne1], by simp [h0, h1, h2, h3, hne]⟩

theorem Remove_result (P : Platform) (w : World) (name : String) :
    ((Remove P w name).1 = none ∧ (Remove P w name).2.fs (P.resolve name) = none) ∨
    (∃ e, (Remove P w name).1 = some (.path "remove" name e) ∧
      (e = .ENOENT → name ≠ "" → (Remove P w name).2.fs (P.resolve name) = none)) := by
  unfold Remove
  by_cases h0 : name = ""
  · exact Or.inr ⟨.ENOENT, by simp [h0], fun _ h => absurd h0 h⟩
  · cases h1 : w.fault .remove name with
    | some e =>
      refine Or.inr ⟨e, by simp [h0], fun he _ => ?_⟩
      simp [h0, he]
    | none =>
      cases h2 : w.fs (P.resolve name) with
      | none => exact Or.inr ⟨.ENOENT, by simp [h0], fun _ _ => by simp [h0, h2]⟩
      | some n => exact Or.inl ⟨by simp [h0], by simp [h0]⟩

/-- A successful read/write probe: the name is not empty and the world is unchanged. -/
theorem OpenFile_RDWR_ok (P : Platform) (w : World) (name : String) (perm : Nat) (f : File)
    (h : (OpenFile P w name O_RDWR perm).1 = .ok f) :
    name ≠ "" ∧ ∃ d m, w.fs (P.resolve name) = some (.file d m) := by
  unfold OpenFile O_RDWR at h
  by_cases h0 : name = ""
  · simp [h0] at h
  · refine ⟨h0, ?_⟩
    cases h1 : w.fault .openWrite name with
    | some e => simp [h0, h1] at h
    | none =>
      cases h2 : w.fs (P.resolve name) with
      | none => simp [h0, h1, h2] at h
      | some n =>
        cases n with
        | dir m => simp [h0, h1, h2] at h
        | file d m => exact ⟨d, m, rfl⟩

/-- A missing file cannot be opened without `O_CREATE`. -/
theorem OpenFile_absent (P : Platform) (w : World) (name : String) (wr : Bool) (perm : Nat)
    (h : w.fs (P.resolve name) = none) :
    ∃ e, OpenFile P w name ⟨wr, false, false⟩ perm = (.error e, w) := by
  unfold OpenFile
  by_cases h0 : name = ""
  · exact ⟨.path "open" name .ENOENT, by simp [h0]⟩
  · cases h1 : w.fault (if wr then .openWrite else .openRead) name with
    | some e => exact ⟨.path "open" name e, by simp [h0, h1]⟩
    | none => exact ⟨.path "open" name .ENOENT, by simp [h0, h1, h]⟩

/-- At a name where no file exists `DeleteFile` returns an error and changes nothing. -/
theorem DeleteFile_absent (P : Platform) (w : World) (src : String)
    (h : w.fs (P.resolve src) = none) : ∃ e, DeleteFile P w src = (some e, w) := by
  obtain ⟨e, he⟩ := OpenFile_absent P w src true 0o666 h
  refine ⟨e, ?_⟩
  unfold DeleteFile O_RDWR
  rw [he]

/-- After a successful `DeleteFile` no file exists at the name. -/
theorem DeleteFile_ok (P : Platform) (w : World) (src : String)
    (h : (DeleteFile P w src).1 = none) : (DeleteFile P w src).2.fs (P.resolve src) = none := by
  unfold DeleteFile at h ⊢
  rcases hO : OpenFile P w src O_RDWR 0o666 with ⟨r, w1⟩
  rw [hO] at h
  cases r with
  | error e => simp at h
  | ok f =>
    have hn : src ≠ "" := (OpenFile_RDWR_ok P w src 0o666 f (by rw [hO])).1
    simp only at h ⊢
    cases hcl : File.Close w1 f with
    | some e => simp [hcl] at h
    | none =>
      simp only [hcl] at h ⊢
      rcases Remove_result P w1 src with ⟨h1, h2⟩ | ⟨e, h1, h2⟩
      · rcases hR : Remove P w1 src with ⟨r1, w2⟩
        rw [hR] at h1 h2
        simp only at h1 h2
        subst h1
        exact h2
      · rcases hR : Remove P w1 src with ⟨r1, w2⟩
        rw [hR] at h1 h2 h
        simp only at h1 h2 h
        subst h1
        simp only at h ⊢
        by_cases hne : e = .ENOENT
        · simp [IsNotExist, hne, h2 hne hn]
        · simp [IsNotExist, hne] at h

/-- Whenever a first `DeleteFile` succeeds, a second one on the same path returns an error. -/
theorem DeleteFile_twice (P : Platform) (w : World) (src : String)
    (h : (DeleteFile P w src).1 = none) :
    ∃ e, (DeleteFile P (DeleteFile P w src).2 src).1 = some e := by
  obtain ⟨e, he⟩ := DeleteFile_absent P _ src (DeleteFile_ok P w src h)
  exact ⟨e, by rw [he]⟩

/-- The cross-volume branch of `MoveFile` after a successful probe and copy. -/
theorem MoveFile_cross_volume_steps (P : Platform) (w : World) (src dst : String) (f : File)
    (hvol : P.volumeName src ≠ P.volumeName dst)
    (hopen : (OpenFile P w src O_RDWR 0o666).1 = .ok f) (hclose : f.Close w = none)
    (hcopy : (CopyFile P w src dst).1 = none) :
    MoveFile P w src dst =
      match Remove P (CopyFile P w src dst).2 src with
      | (some err, w3) =>
        if IsNotExist err then
          (none, w3.println "Файл перемещён, но удалить его не получилось: удалён кем-то ещё.")
        else
          (some (.errorf ("Файл перемещён. Но удалить его не получилось. " ++ err.Error)), w3)
      | (none, w3) => (none, w3) := by
  have hw : (OpenFile P w src O_RDWR 0o666).2 = w := OpenFile_plain_world P w src true 0o666
  unfold MoveFile
  rw [if_neg hvol]
  rcases hO : OpenFile P w src O_RDWR 0o666 with ⟨r, w1⟩
  rw [hO] at hopen hw
  simp only at hopen hw
  subst hopen hw
  simp only [hclose]
  rcases hC : CopyFile P w1 src dst with ⟨r2, w2⟩
  rw [hC] at hcopy
  simp only at hcopy
  subst hcopy
  rfl

/-- The cross-volume branch of `MoveFile` when the probe fails, and when the copy fails. -/
theorem MoveFile_cross_volume_stops (P : Platform) (w : World) (src dst : String) (err : GoError)
    (hvol : P.volumeName src ≠ P.volumeName dst)
    :
    (((OpenFile P w src O_RDWR 0o666).1 = .error err ∨
      ∃ f, (OpenFile P w src O_RDWR 0o666).1 = .ok f ∧ f.Close w = some err) →
      MoveFile P w src dst = (some err, w)) ∧
    ((∃ f, (OpenFile P w src O_RDWR 0o666).1 = .ok f ∧ f.Close w = none ∧
        (CopyFile P w src dst).1 = some err) →
      MoveFile P w src dst = (some err, (CopyFile P w src dst).2)) := by
  have hw : (OpenFile P w src O_RDWR 0o666).2 = w := OpenFile_plain_world P w src true 0o666
  unfold MoveFile
  rw [if_neg hvol]
  rcases hO : OpenFile P w src O_RDWR 0o666 with ⟨r, w1⟩
  rw [hO] at hw
  simp only at hw
  subst hw
  refine ⟨fun hfail => ?_, fun hfail => ?_⟩
  · rcases hfail with h | ⟨f, h, hc⟩
    · simp only at h
      subst h
      rfl
    · simp only at h
      subst h
      simp [hc]
  · obtain ⟨f, h, hc, hcopy⟩ := hfail
    simp only at h
    subst h
    simp only [hc]
    rcases hC : CopyFile P w1 src dst with ⟨r2, w2⟩
    rw [hC] at hcopy
    simp only at hcopy
    subst hcopy
    rfl

/-- The cross-volume branch of `MoveFile` when the probe or the copy fails. -/
theorem MoveFile_cross_volume_abort (P : Platform) (w : World) (src dst : String) (err : GoError)
    (hvol : P.volumeName src ≠ P.volumeName dst)
    (hfail : (OpenFile P w src O_RDWR 0o666).1 = .error err ∨
      (∃ f, (OpenFile P w src O_RDWR 0o666).1 = .ok f ∧ f.Close w = some err) ∨
      (∃ f, (OpenFile P w src O_RDWR 0o666).1 = .ok f ∧ f.Close w = none ∧
        (CopyFile P w src dst).1 = some err)) :
    MoveFile P w src dst = (some err, w) ∨
      MoveFile P w src dst = (some err, (CopyFile P w src dst).2) := by
  obtain ⟨hprobe, hcopy⟩ := MoveFile_cross_volume_stops P w src dst err hvol
  rcases hfail with h | h | h
  · exact Or.inl (hprobe (Or.inl h))
  · exact Or.inl (hprobe (Or.inr h))
  · exact Or.inr (hcopy h)

/-! ## Facts about cleaned paths -/

theorem splitSlash_ne_nil (cs : List Char) : splitSlash cs ≠ [] := by
  cases cs with
  | nil => simp [splitSlash]
  | cons c cs =>
    unfold splitSlash
    split
    · simp
    · split <;> simp

theorem splitSlash_append_slash (a b : List Char) :
    splitSlash (a ++ '/' :: b) = splitSlash a ++ splitSlash b := by
  induction a with
  | nil => simp [splitSlash]
  | cons c a ih =>
    by_cases hc : c = '/'
    · simp [splitSlash, hc, ih]
    · have hne := splitSlash_ne_nil a
      cases hs : splitSlash a with
      | nil => exact absurd hs hne
      | cons x xs => simp [splitSlash, hc, ih, hs]

theorem splitSlash_no_slash (cs : List Char) : ∀ c ∈ splitSlash cs, '/' ∉ c := by
  induction cs with
  | nil => simp [splitSlash]
  | cons c cs ih =>
    by_cases hc : c = '/'
    · intro x hx
      simp only [splitSlash, hc, if_true, List.mem_cons] at hx
      rcases hx with hx | hx
      · simp [hx]
      · exact ih x hx
    · cases hs : splitSlash cs with
      | nil => exact absurd hs (splitSlash_ne_nil cs)
      | cons x xs =>
        rw [hs] at ih
        intro y hy
        simp only [splitSlash, hc, if_false, hs, List.mem_cons] at hy
        rcases hy with hy | hy
        · subst hy
          have := ih x (by simp)
          simp only [List.mem_cons, not_or]
          exact ⟨fun e => hc e.symm, this⟩
        · exact ih y (by simp [hy])

theorem splitSlash_of_no_slash (x : List Char) (h : '/' ∉ x) : splitSlash x = [x] := by
  induction x with
  | nil => rfl
  | cons c x ih =>
    simp only [List.mem_cons, not_or] at h
    have hc : c ≠ '/' := fun e => h.1 e.symm
    simp [splitSlash, hc, ih h.2]

theorem splitSlash_joinSlash (st : List (List Char)) (hne : st ≠ [])
    (h : ∀ c ∈ st, '/' ∉ c) : splitSlash (joinSlash st) = st := by
  induction st with
  | nil => exact absurd rfl hne
  | cons x r ih =>
    cases r with
    | nil => simpa [joinSlash] using splitSlash_of_no_slash x (h x (by simp))
    | cons y r =>
      have h1 := ih (by simp) (fun c hc => h c (by simp [hc]))
      simp only [joinSlash]
      rw [splitSlash_append_slash, h1, splitSlash_of_no_slash x (h x (by simp))]
      rfl

theorem cleanStep_plain (r : Bool) (st : List (List Char)) (c : List Char) (h : plainElem c) :
    cleanStep r st c = st ++ [c] := by
  unfold cleanStep
  simp [h.1, h.2.1, h.2.2]

theorem foldl_cleanStep_plain (r : Bool) (cs st : List (List Char))
    (h : ∀ c ∈ cs, plainElem c) : cs.foldl (cleanStep r) st = st ++ cs := by
  induction cs generalizing st with
  | nil => simp
  | cons c cs ih =>
    rw [List.foldl_cons, cleanStep_plain r st c (h c (by simp)), ih _ (fun x hx => h x (by simp [hx]))]
    simp

theorem cleanStep_canon (r : Bool) (st : List (List Char)) (c : List Char) (h : Canon r st) :
    Canon r (cleanStep r st c) := by
  obtain ⟨k, rest, hst, hrest, hk⟩ := h
  by_cases h1 : c = [] ∨ c = ['.']
  · have : cleanStep r st c = st := by
      unfold cleanStep
      simp [h1]
    rw [this]
    exact ⟨k, rest, hst, hrest, hk⟩
  · by_cases h2 : c = ['.', '.']
    · subst h2
      rcases List.eq_nil_or_concat rest with hr | ⟨rest1, top, hr⟩
      · subst hr
        simp only [List.append_nil] at hst
        cases k with
        | zero =>
          subst hst
          cases r with
          | true => exact ⟨0, [], by simp [cleanStep], by simp, by simp⟩
          | false => exact ⟨1, [], by simp [cleanStep], by simp, by simp⟩
        | succ k =>
          have hr : r = false := by
            cases r with
            | true => exact absurd (hk rfl) (by simp)
            | false => rfl
          refine ⟨k + 2, [], ?_, by simp, by simp [hr]⟩
          subst hst
          have hl : (List.replicate (k + 1) ['.', '.']).getLast? = some ['.', '.'] := by
            rw [List.getLast?_eq_getLast _ (by simp)]
            simp
          unfold cleanStep
          simp only [hl]
          simp [List.replicate_succ']
      · rw [List.concat_eq_append] at hr
        subst hr
        have htop : plainElem top := hrest top (by simp)
        refine ⟨k, rest1, ?_, fun x hx => hrest x (by simp [hx]), hk⟩
        have hl : st.getLast? = some top := by
          rw [hst, ← List.append_assoc]
          simp
        unfold cleanStep
        simp only [hl, htop.2.2, if_false]
        rw [hst, ← List.append_assoc]
        simp [List.dropLast_concat]
    · have hp : plainElem c := ⟨fun e => h1 (Or.inl e), fun e => h1 (Or.inr e), h2⟩
      rw [cleanStep_plain r st c hp]
      refine ⟨k, rest ++ [c], by simp [hst], ?_, hk⟩
      intro x hx
      rcases List.mem_append.1 hx with hx | hx
      · exact hrest x hx
      · simp only [List.mem_singleton] at hx
        exact hx ▸ hp

theorem foldl_cleanStep_canon (r : Bool) (cs st : List (List Char)) (h : Canon r st) :
    Canon r (cs.foldl (cleanStep r) st) := by
  induction cs generalizing st with
  | nil => exact h
  | cons c cs ih => exact ih _ (cleanStep_canon r st c h)

theorem cleanElems_canon (cs : List Char) :
    Canon (decide (cs.head? = some '/')) (cleanElems cs) :=
  foldl_cleanStep_canon _ _ [] ⟨0, [], by simp, by simp, by simp⟩

theorem cleanStep_dotdot_replicate (j : Nat) :
    cleanStep false (List.replicate j ['.', '.']) ['.', '.'] = List.replicate (j + 1) ['.', '.'] := by
  cases j with
  | zero => simp [cleanStep]
  | succ j =>
    have hl : (List.replicate (j + 1) ['.', '.']).getLast? = some ['.', '.'] := by
      rw [List.getLast?_eq_getLast _ (by simp)]
      simp
    unfold cleanStep
    simp only [hl]
    simp [List.replicate_succ']

theorem foldl_dotdots (k j : Nat) :
    (List.replicate k ['.', '.']).foldl (cleanStep false) (List.replicate j ['.', '.'])
      = List.replicate (j + k) ['.', '.'] := by
  induction k generalizing j with
  | zero => simp
  | succ k ih =>
    rw [List.replicate_succ, List.foldl_cons, cleanStep_dotdot_replicate, ih]
    congr 1
    omega

/-- Cleaning the elements of a cleaned path keeps them all. -/
theorem foldl_canon_id (r : Bool) (st : List (List Char)) (h : Canon r st) :
    st.foldl (cleanStep r) [] = st := by
  obtain ⟨k, rest, hst, hrest, hk⟩ := h
  subst hst
  rw [List.foldl_append]
  cases r with
  | true =>
    have := hk rfl
    subst this
    simpa using foldl_cleanStep_plain true rest [] hrest
  | false =>
    have := foldl_dotdots k 0
    simp only [List.replicate_zero, Nat.zero_add] at this
    rw [this]
    exact foldl_cleanStep_plain false rest _ hrest

theorem cleanStep_mem (r : Bool) (st : List (List Char)) (c x : List Char)
    (h : x ∈ cleanStep r st c) : x ∈ st ∨ x = c := by
  unfold cleanStep at h
  split at h
  · exact Or.inl h
  · split at h
    · split at h
      · split at h
        · simpa using h
        · exact Or.inl (List.mem_of_mem_dropLast h)
      · split at h
        · exact Or.inl h
        · simpa using h
    · simpa using h

theorem foldl_cleanStep_mem (r : Bool) (cs st : List (List Char)) (x : List Char)
    (h : x ∈ cs.foldl (cleanStep r) st) : x ∈ st ∨ x ∈ cs := by
  induction cs generalizing st with
  | nil => exact Or.inl h
  | cons c cs ih =>
    rcases ih _ h with h1 | h1
    · rcases cleanStep_mem r st c x h1 with h2 | h2
      · exact Or.inl h2
      · exact Or.inr (by simp [h2])
    · exact Or.inr (by simp [h1])

theorem cleanElems_no_slash (cs : List Char) : ∀ c ∈ cleanElems cs, '/' ∉ c := by
  intro c hc
  rcases foldl_cleanStep_mem _ _ _ c hc with h | h
  · simp at h
  · exact splitSlash_no_slash cs c h

theorem canon_head_ne_nil (r : Bool) (x : List Char) (st : List (List Char))
    (h : Canon r (x :: st)) : x ≠ [] := by
  obtain ⟨k, rest, hst, hrest, _⟩ := h
  cases k with
  | zero =>
    simp only [List.replicate_zero, List.nil_append] at hst
    exact (hrest x (by simp [← hst])).1
  | succ k =>
    simp only [List.replicate_succ, List.cons_append, List.cons.injEq] at hst
    simp [hst.1]

theorem joinSlash_head (x : List Char) (st : List (List Char)) (hx : x ≠ []) :
    (joinSlash (x :: st)).head? = x.head? := by
  cases x with
  | nil => exact absurd rfl hx
  | cons a x =>
    cases st with
    | nil => rfl
    | cons y st => rfl

/-- The elements kept by `Clean` are unchanged by cleaning the result again, and the result
is rooted exactly when the path is. -/
theorem cleanElems_Clean (s : String) :
    cleanElems (Clean s).data = cleanElems s.data ∧
    ((Clean s).data.head? = some '/' ↔ s.data.head? = some '/') := by
  have hcanon := cleanElems_canon s.data
  have hslash := cleanElems_no_slash s.data
  unfold Clean
  by_cases hr : s.data.head? = some '/'
  · simp only [hr, if_true, List.head?_cons, and_true, iff_true]
    simp only [hr, decide_True] at hcanon
    cases hst : cleanElems s.data with
    | nil => decide
    | cons x st =>
      rw [hst] at hcanon hslash
      have h1 := splitSlash_joinSlash (x :: st) (by simp) hslash
      have h2 := foldl_canon_id true (x :: st) hcanon
      show List.foldl _ [] (splitSlash ('/' :: joinSlash (x :: st))) = _
      simp only [splitSlash, if_true, h1, List.head?_cons, decide_True]
      rw [List.foldl_cons]
      exact h2
  · simp only [hr, if_false]
    simp only [hr, decide_False] at hcanon
    cases hst : cleanElems s.data with
    | nil =>
      simp only [if_true, hr, iff_false]
      exact ⟨by decide, by decide⟩
    | cons x st =>
      rw [hst] at hcanon hslash
      have hx : x ≠ [] := canon_head_ne_nil false x st hcanon
      have hhead : (joinSlash (x :: st)).head? ≠ some '/' := by
        rw [joinSlash_head x st hx]
        intro e
        have := hslash x (by simp)
        cases x with
        | nil => exact hx rfl
        | cons a x =>
          simp only [List.head?_cons, Option.some.injEq] at e
          exact this (by simp [e])
      have h1 := splitSlash_joinSlash (x :: st) (by simp) hslash
      have h2 := foldl_canon_id false (x :: st) hcanon
      simp only [reduceCtorEq, if_false, hr, iff_false]
      refine ⟨?_, hhead⟩
      show List.foldl _ [] (splitSlash (joinSlash (x :: st))) = _
      rw [h1]
      simp only [hhead, decide_False]
      exact h2

theorem append_slash_data (a b : String) : (a ++ "/" ++ b).data = a.data ++ '/' :: b.data := by
  simp [String.data_append]

/-! ## Facts about extraction -/

theorem scanBackElement_le (sep : Char) (cs : List Char) (i : Nat) :
    scanBackElement sep cs i ≤ cs.length := by
  unfold scanBackElement
  calc ((cs.take i).reverse.dropWhile (fun c => c ≠ sep)).length
      ≤ (cs.take i).reverse.length := (List.dropWhile_sublist _).length_le
    _ ≤ cs.length := by simp [List.length_take]

/-- The recursion of `MkdirAll` never uses up a bound larger than the length of the path:
any two such bounds give the same result. -/
theorem MkdirAllAux_fuel (P : Platform) (perm : Nat) :
    ∀ (fuel fuel1 : Nat) (w : World) (path : String),
      path.length < fuel → path.length < fuel1 →
      MkdirAllAux P perm fuel w path = MkdirAllAux P perm fuel1 w path := by
  intro fuel
  induction fuel with
  | zero => intro _ _ _ h; exact absurd h (by omega)
  | succ fuel ih =>
    intro fuel1 w path h h1
    cases fuel1 with
    | zero => exact absurd h1 (by omega)
    | succ fuel1 =>
      have hj := scanBackElement_le P.pathSeparator path.data
        (skipTrailingSeparators P.pathSeparator path.data)
      have hlen : path.length = path.data.length := rfl
      have hrec : (if scanBackElement P.pathSeparator path.data
            (skipTrailingSeparators P.pathSeparator path.data) > 1
          then MkdirAllAux P perm fuel w (sliceTo path
            (scanBackElement P.pathSeparator path.data
              (skipTrailingSeparators P.pathSeparator path.data) - 1))
          else (none, w)) =
          (if scanBackElement P.pathSeparator path.data
            (skipTrailingSeparators P.pathSeparator path.data) > 1
          then MkdirAllAux P perm fuel1 w (sliceTo path
            (scanBackElement P.pathSeparator path.data
              (skipTrailingSeparators P.pathSeparator path.data) - 1))
          else (none, w)) := by
        split
        · rename_i hgt
          have hs : ∀ n, (sliceTo path n).length ≤ n := by
            intro n
            show (path.data.take n).length ≤ n
            simp [List.length_take]
          have := hs (scanBackElement P.pathSeparator path.data
              (skipTrailingSeparators P.pathSeparator path.data) - 1)
          exact ih fuel1 w _ (by omega) (by omega)
        · rfl
      unfold MkdirAllAux
      simp only [hrec]


theorem Grows.refl (w : World) : Grows w w := ⟨rfl, fun _ => Or.inl rfl⟩

theorem Grows.trans {w w1 w2 : World} (h1 : Grows w w1) (h2 : Grows w1 w2) : Grows w w2 := by
  refine ⟨h2.1.trans h1.1, fun k => ?_⟩
  rcases h1.2 k with a | ⟨a, m, b⟩
  · rcases h2.2 k with c | ⟨c, m, d⟩
    · exact Or.inl (c.trans a)
    · exact Or.inr ⟨a ▸ c, m, d⟩
  · rcases h2.2 k with c | ⟨c, m1, d⟩
    · exact Or.inr ⟨a, m, c.trans b⟩
    · rw [b] at c
      simp at c

theorem Mkdir_grows (P : Platform) (w : World) (name : String) (perm : Nat) :
    Grows w (Mkdir P w name perm).2 := by
  unfold Mkdir
  by_cases h0 : name = ""
  · simpa [h0] using Grows.refl w
  · cases h1 : w.fault .mkdir name with
    | some e => simpa [h0, h1] using Grows.refl w
    | none =>
      cases h2 : w.fs (P.resolve name) with
      | some n => simpa [h0, h1, h2] using Grows.refl w
      | none =>
        simp only [h0, if_false, h1, h2]
        refine ⟨rfl, fun k => ?_⟩
        by_cases hk : k = P.resolve name
        · exact Or.inr ⟨hk ▸ h2, w.masked perm, by simp [hk]⟩
        · exact Or.inl (by simp [hk])

theorem MkdirAllAux_grows (P : Platform) (perm : Nat) (fuel : Nat) (w : World) (path : String) :
    Grows w (MkdirAllAux P perm fuel w path).2 := by
  induction fuel generalizing w path with
  | zero => exact Grows.refl w
  | succ fuel ih =>
    unfold MkdirAllAux
    cases hS : Stat P w path with
    | ok dir =>
      simp only
      split <;> exact Grows.refl w
    | error e =>
      simp only
      have hpar : ∀ x : Option GoError × World,
          x = (if scanBackElement P.pathSeparator path.data
                (skipTrailingSeparators P.pathSeparator path.data) > 1
              then MkdirAllAux P perm fuel w (sliceTo path
                (scanBackElement P.pathSeparator path.data
                  (skipTrailingSeparators P.pathSeparator path.data) - 1))
              else (none, w)) → Grows w x.2 := by
        intro x hx
        subst hx
        split
        · exact ih w _
        · exact Grows.refl w
      generalize (if scanBackElement P.pathSeparator path.data
                (skipTrailingSeparators P.pathSeparator path.data) > 1
              then MkdirAllAux P perm fuel w (sliceTo path
                (scanBackElement P.pathSeparator path.data
                  (skipTrailingSeparators P.pathSeparator path.data) - 1))
              else (none, w)) = x at hpar
      have hx := hpar x rfl
      rcases x with ⟨r, w1⟩
      cases r with
      | some err => exact hx
      | none =>
        simp only
        have hm := Mkdir_grows P w1 path perm
        rcases hM : Mkdir P w1 path perm with ⟨r2, w2⟩
        rw [hM] at hm
        have h12 : Grows w w2 := Grows.trans hx hm
        cases r2 with
        | none => exact h12
        | some err =>
          simp only
          split
          · split <;> exact h12
          · exact h12

theorem MkdirAll_grows (P : Platform) (w : World) (path : String) (perm : Nat) :
    Grows w (MkdirAll P w path perm).2 :=
  MkdirAllAux_grows P perm _ w path

theorem putData_umask (w : World) (k : String) (d : Content) :
    (w.putData k d).umask = w.umask := by
  unfold World.putData
  split <;> rfl

theorem OpenFile_umask (P : Platform) (w : World) (name : String) (flag : OpenFlags)
    (perm : Nat) : (OpenFile P w name flag perm).2.umask = w.umask := by
  unfold OpenFile
  split
  · rfl
  · split
    · rfl
    · split <;> split <;> rfl

/-- A successful `OpenFile` with `O_WRONLY|O_CREATE|O_TRUNC`: the name then holds an empty
regular file, new with the masked permission bits or emptied with the bits it had. -/
theorem OpenFile_create_trunc_result (P : Platform) (w : World) (name : String) (perm : Nat)
    (f : File) (h : (OpenFile P w name O_WRONLY_CREATE_TRUNC perm).1 = .ok f) :
    ∃ m1, (OpenFile P w name O_WRONLY_CREATE_TRUNC perm).2.fs (P.resolve name)
        = some (.file (.bytes []) m1) ∧
      ((w.fs (P.resolve name) = none ∧ m1 = w.masked perm) ∨
        ∃ d0, w.fs (P.resolve name) = some (.file d0 m1)) := by
  unfold OpenFile O_WRONLY_CREATE_TRUNC at h ⊢
  by_cases h0 : name = ""
  · simp [h0] at h
  · cases h1 : w.fault .openWrite name with
    | some e => simp [h0, h1] at h
    | none =>
      cases h2 : w.fs (P.resolve name) with
      | none => exact ⟨w.masked perm, by simp [h0, h1, h2], Or.inl ⟨rfl, rfl⟩⟩
      | some n =>
        cases n with
        | dir m => simp [h0, h1, h2] at h
        | file d m => exact ⟨m, by simp [h0, h1, h2], Or.inr ⟨d, rfl⟩⟩

theorem ioCopyFromEntry_fs_other (P : Platform) (w : World) (dst : File) (rc : EntryReader)
    (q : String) (h : q ≠ P.resolve dst.name) :
    (ioCopyFromEntry P w dst rc).2.fs q = w.fs q := by
  unfold ioCopyFromEntry
  split
  · rfl
  · split
    · split
      · rfl
      · split
        · exact putData_fs_other _ _ _ _ h
        · rfl
    · rfl

theorem ioCopyFromEntry_umask (P : Platform) (w : World) (dst : File) (rc : EntryReader) :
    (ioCopyFromEntry P w dst rc).2.umask = w.umask := by
  unfold ioCopyFromEntry
  split
  · rfl
  · split
    · split
      · rfl
      · split
        · exact putData_umask _ _ _
        · rfl
    · rfl

theorem ioCopyFromEntry_ok (P : Platform) (w : World) (dst : File) (rc : EntryReader)
    (d0 : Content) (m : Nat) (hf : w.fs (P.resolve dst.name) = some (.file d0 m))
    (h : (ioCopyFromEntry P w dst rc).1 = none) :
    (ioCopyFromEntry P w dst rc).2.fs (P.resolve dst.name) = some (.file rc.entry.data m) := by
  unfold ioCopyFromEntry at h ⊢
  cases h0 : w.fault .zipEntryRead rc.entry.header.name with
  | some e => simp [h0] at h
  | none =>
    cases h1 : archiveIntact P w rc.archive with
    | false => simp [h0, h1] at h
    | true =>
      cases h2 : w.fault .write dst.name with
      | some e => simp [h0, h1, h2] at h
      | none =>
        simp only [h1, if_true, hf]
        exact putData_fs_file _ _ _ _ _ hf

/-- One round of the loop of `Unzip` for an entry that is not a directory, when the loop
goes on: the target holds the data of the entry, other names gained at most directories. -/
theorem unzip_step (P : Platform) (r : ZipReader) (dest : String) (w : World) (f : Entry)
    (rest : List Entry) (out : Outcome × World) (hdir : f.header.IsDir = false)
    (h : unzipLoop P r dest w (f :: rest) = out) (hout : out.1 = .returned none) :
    ∃ w3, unzipLoop P r dest w3 rest = out ∧ w3.umask = w.umask ∧
      (∃ m1, w3.fs (target P dest f) = some (.file f.data m1) ∧
        ((w.fs (target P dest f) = none ∧ m1 = w.masked f.header.perm) ∨
          ∃ d0, w.fs (target P dest f) = some (.file d0 m1))) ∧
      ∀ k, k ≠ target P dest f →
        w3.fs k = w.fs k ∨ (w.fs k = none ∧ ∃ m, w3.fs k = some (.dir m)) := by
  unfold target
  unfold unzipLoop at h
  cases hO : zipEntryOpen P w r f with
  | error err =>
    simp only [hO] at h
    subst h
    simp at hout
  | ok rc =>
    have hrc : rc.entry = f := by
      unfold zipEntryOpen at hO
      split at hO
      · simp at hO
      · split at hO
        · simp only [Except.ok.injEq] at hO
          subst hO
          rfl
        · simp at hO
    simp only [hO, hdir, Bool.false_eq_true, if_false] at h
    generalize hfdir : (if LastIndex (P.join dest f.header.name) P.pathSeparator > -1
        then sliceTo (P.join dest f.header.name)
          (LastIndex (P.join dest f.header.name) P.pathSeparator).toNat
        else "") = fdir at h
    have hg := MkdirAll_grows P w fdir f.header.Mode
    rcases hM : MkdirAll P w fdir f.header.Mode with ⟨r1, w1⟩
    rw [hM] at h hg
    simp only at hg
    cases r1 with
    | some err =>
      simp only at h
      subst h
      simp at hout
    | none =>
      simp only at h
      have hname := OpenFile_name P w1 (P.join dest f.header.name) O_WRONLY_CREATE_TRUNC
        f.header.Mode
      have hres := OpenFile_create_trunc_result P w1 (P.join dest f.header.name) f.header.Mode
      have hoth := OpenFile_fs_other P w1 (P.join dest f.header.name) O_WRONLY_CREATE_TRUNC
        f.header.Mode
      have hum := OpenFile_umask P w1 (P.join dest f.header.name) O_WRONLY_CREATE_TRUNC
        f.header.Mode
      rcases hF : OpenFile P w1 (P.join dest f.header.name) O_WRONLY_CREATE_TRUNC
        f.header.Mode with ⟨r2, w2⟩
      rw [hF] at h hname hres hoth hum
      simp only at hname hres hoth hum
      cases r2 with
      | error err =>
        simp only at h
        subst h
        simp at hout
      | ok o =>
        have ho := hname o rfl
        subst ho
        obtain ⟨m1, hw2, hm1⟩ := hres _ rfl
        simp only at h
        have hcopy := ioCopyFromEntry_ok P w2 ⟨P.join dest f.header.name⟩ rc _ m1 hw2
        have hcoth := ioCopyFromEntry_fs_other P w2 ⟨P.join dest f.header.name⟩ rc
        have hcum := ioCopyFromEntry_umask P w2 ⟨P.join dest f.header.name⟩ rc
        rcases hC : ioCopyFromEntry P w2 ⟨P.join dest f.header.name⟩ rc with ⟨r3, w3⟩
        rw [hC] at h hcopy hcoth hcum
        simp only at hcopy hcoth hcum
        cases r3 with
        | some err =>
          simp only at h
          subst h
          simp at hout
        | none =>
          simp only at h
          refine ⟨w3, h, by rw [hcum, hum, hg.1], ⟨m1, ?_, ?_⟩, ?_⟩
          · rw [hcopy rfl, hrc]
          · rcases hg.2 (P.resolve (P.join dest f.header.name)) with a | ⟨a, m, b⟩
            · rcases hm1 with ⟨c, e⟩ | ⟨d0, c⟩
              · exact Or.inl ⟨a ▸ c, by rw [e]; simp [World.masked, hg.1, FileHeader.Mode]⟩
              · exact Or.inr ⟨d0, a ▸ c⟩
            · rcases hm1 with ⟨c, _⟩ | ⟨d0, c⟩
              · rw [show w1.fs (P.resolve (P.join dest f.header.name)) = some (.dir m) from b] at c
                simp at c
              · rw [show w1.fs (P.resolve (P.join dest f.header.name)) = some (.dir m) from b] at c
                simp at c
          · intro k hk
            rw [hcoth k hk, hoth k hk]
            exact hg.2 k

theorem zipOpenReader_ok (P : Platform) (w : World) (name : String) (r : ZipReader)
    (h : zipOpenReader P w name = .ok r) :
    ∃ m, w.fs (P.resolve name) = some (.file (.archive r.File true) m) := by
  unfold zipOpenReader at h
  by_cases h0 : name = ""
  · simp [h0] at h
  · cases h1 : w.fault .zipOpenReader name with
    | some e => simp [h0, h1] at h
    | none =>
      cases h2 : w.fs (P.resolve name) with
      | none => simp [h0, h1, h2] at h
      | some n =>
        cases n with
        | dir m => simp [h0, h1, h2] at h
        | file d m =>
          cases d with
          | bytes b => simp [h0, h1, h2] at h
          | archive es fin =>
            cases fin with
            | false => simp [h0, h1, h2] at h
            | true =>
              simp only [h0, if_false, h1, h2, Except.ok.injEq] at h
              subst h
              exact ⟨m, rfl⟩

/-! ## Facts about archive creation -/

theorem setLastData_append (es : List Entry) (h : FileHeader) (d0 d : Content) :
    setLastData (es ++ [⟨h, d0⟩]) d = es ++ [⟨h, d⟩] := by
  unfold setLastData
  simp

/-- A successful `addFileToZip` of a regular file that is not the output: one entry is
added, named by the base name, with the bits and the data of the file and the method
`Deflate`; only the output changes, to the archive written so far, not finalised. -/
theorem addFileToZip_ok (P : Platform) (w : World) (zw : ZipWriter) (file : String)
    (c : Content) (m1 : Nat) (hka : w.fs (P.resolve zw.file.name) = some (.file c m1))
    (hne : P.resolve file ≠ P.resolve zw.file.name) (hbase : endsWithSlash (P.base file) = false)
    (h : (addFileToZip P w zw file).1 = none) :
    ∃ d m, w.fs (P.resolve file) = some (.file d m) ∧
      (addFileToZip P w zw file).2.1 = ⟨zw.file, zw.dir ++ [entryFor P file d m]⟩ ∧
      (addFileToZip P w zw file).2.2.fs (P.resolve zw.file.name)
        = some (.file (.archive (zw.dir ++ [entryFor P file d m]) false) m1) ∧
      (∀ k, k ≠ P.resolve zw.file.name → (addFileToZip P w zw file).2.2.fs k = w.fs k) ∧
      (addFileToZip P w zw file).2.2.umask = w.umask := by
  have hopen : (Open P w file).2 = w := OpenFile_plain_world P w file false 0
  have hname := OpenFile_name P w file O_RDONLY 0
  unfold addFileToZip at h ⊢
  rcases hO : Open P w file with ⟨r, w1⟩
  have hO1 : OpenFile P w file O_RDONLY 0 = (r, w1) := hO
  rw [hO] at hopen h
  rw [hO1] at hname
  simp only at hopen hname
  subst hopen
  cases r with
  | error err => simp at h
  | ok fileToZip =>
    have := hname _ rfl
    subst this
    simp only at h ⊢
    cases hS : Stat P w1 file with
    | error err => simp [hS] at h
    | ok info =>
      simp only [hS] at h ⊢
      have hinfo : info.name = P.base file ∧
          ((∃ d, w1.fs (P.resolve file) = some (.file d info.perm) ∧ info.isDir = false) ∨
            (w1.fs (P.resolve file) = some (.dir info.perm) ∧ info.isDir = true)) := by
        unfold Stat at hS
        by_cases h0 : file = ""
        · simp [h0] at hS
        · cases h1 : w1.fault .stat file with
          | some e => simp [h0, h1] at hS
          | none =>
            cases h2 : w1.fs (P.resolve file) with
            | none => simp [h0, h1, h2] at hS
            | some n =>
              cases n with
              | dir m =>
                simp only [h0, h1, h2, if_false, Except.ok.injEq] at hS
                subst hS
                exact ⟨rfl, Or.inr ⟨rfl, rfl⟩⟩
              | file d m =>
                simp only [h0, h1, h2, if_false, Except.ok.injEq] at hS
                subst hS
                exact ⟨rfl, Or.inl ⟨d, rfl, rfl⟩⟩
      unfold CreateHeader at h ⊢
      cases hF : w1.fault .zipCreateHeader zw.file.name with
      | some e => simp [hF] at h
      | none =>
        simp only [hF] at h ⊢
        have hsrc : ∀ q, (w1.putData (P.resolve zw.file.name) q).fs (P.resolve file)
            = w1.fs (P.resolve file) := fun q => putData_fs_other _ _ _ _ hne
        unfold ioCopyToEntry at h ⊢
        cases hR : w1.fault .read file with
        | some e => simp [hR, putData_fault] at h
        | none =>
          simp only [putData_fault, hR, hsrc] at h ⊢
          rcases hinfo with ⟨hn, ⟨d, hfile, hisdir⟩ | ⟨hdirn, _⟩⟩
          · have hslash : endsWithSlash (FileInfoHeader info).name = false := by
              simp [FileInfoHeader, hisdir, hn, hbase]
            simp only [hfile, hslash, Bool.false_eq_true, if_false] at h ⊢
            cases hW : w1.fault .write zw.file.name with
            | some e => simp [hW] at h
            | none =>
              simp only [hW]
              have hent : (⟨{ FileInfoHeader info with method := Deflate }, d⟩ : Entry)
                  = entryFor P file d info.perm := by
                simp [FileInfoHeader, entryFor, hisdir, hn]
              refine ⟨d, info.perm, rfl, ?_, ?_, ?_, ?_⟩
              · rw [setLastData_append, hent]
              · rw [setLastData_append, hent]
                have h1 := putData_fs_file w1 (P.resolve zw.file.name)
                  (.archive (zw.dir ++ [⟨{ FileInfoHeader info with method := Deflate },
                    .bytes []⟩]) false) c m1 hka
                exact putData_fs_file _ _ _ _ _ h1
              · intro k hk
                rw [putData_fs_other _ _ _ _ hk, putData_fs_other _ _ _ _ hk]
              · rw [putData_umask, putData_umask]
          · simp [hdirn] at h

theorem entryOf_name (P : Platform) (w : World) (file : String) :
    (entryOf P w file).header.name = P.base file := by
  unfold entryOf
  split <;> rfl

theorem entryOf_congr (P : Platform) (w w1 : World) (file : String)
    (h : w1.fs (P.resolve file) = w.fs (P.resolve file)) : entryOf P w1 file = entryOf P w file := by
  unfold entryOf
  rw [h]

/-- A successful run of the loop of `ZipFiles` over regular files other than the output:
one entry per file is added, in order; only the output changes and it is not finalised. -/
theorem zipFilesLoop_ok (P : Platform) (files : List String) :
    ∀ (w : World) (zw : ZipWriter) (c : Content) (m1 : Nat),
      w.fs (P.resolve zw.file.name) = some (.file c m1) → (∀ es, c ≠ .archive es true) →
      (∀ f ∈ files, P.resolve f ≠ P.resolve zw.file.name) →
      (∀ f ∈ files, endsWithSlash (P.base f) = false) →
      (zipFilesLoop P w zw files).1 = none →
      (∀ f ∈ files, ∃ d m, w.fs (P.resolve f) = some (.file d m)) ∧
      (zipFilesLoop P w zw files).2.1 = ⟨zw.file, zw.dir ++ files.map (entryOf P w)⟩ ∧
      (∃ c1, (zipFilesLoop P w zw files).2.2.fs (P.resolve zw.file.name) = some (.file c1 m1) ∧
        ∀ es, c1 ≠ .archive es true) ∧
      (∀ k, k ≠ P.resolve zw.file.name → (zipFilesLoop P w zw files).2.2.fs k = w.fs k) ∧
      (zipFilesLoop P w zw files).2.2.umask = w.umask := by
  induction files with
  | nil =>
    intro w zw c m1 hka hc _ _ _
    exact ⟨by simp, by simp [zipFilesLoop], ⟨c, by simpa [zipFilesLoop] using hka, hc⟩,
      fun k _ => rfl, rfl⟩
  | cons file rest ih =>
    intro w zw c m1 hka hc hne hbase h
    unfold zipFilesLoop at h ⊢
    have hadd := addFileToZip_ok P w zw file c m1 hka (hne file (by simp)) (hbase file (by simp))
    rcases hA : addFileToZip P w zw file with ⟨r, zw1, w1⟩
    rw [hA] at h hadd
    cases r with
    | some err => simp at h
    | none =>
      simp only at h hadd ⊢
      obtain ⟨d, m, hfile, hzw, hka1, hframe, hum⟩ := hadd trivial
      subst hzw
      have ih1 := ih w1 ⟨zw.file, zw.dir ++ [entryFor P file d m]⟩ _ m1 hka1 (by simp)
        (fun f hf => hne f (by simp [hf])) (fun f hf => hbase f (by simp [hf])) h
      obtain ⟨hfiles, hdir, hc1, hfr, hu⟩ := ih1
      have hsame : ∀ f ∈ rest, w1.fs (P.resolve f) = w.fs (P.resolve f) :=
        fun f hf => hframe _ (hne f (by simp [hf]))
      refine ⟨?_, ?_, hc1, fun k hk => (hfr k hk).trans (hframe k hk), hu.trans hum⟩
      · intro f hf
        rcases List.mem_cons.1 hf with hf | hf
        · exact hf ▸ ⟨d, m, hfile⟩
        · obtain ⟨d1, m2, h1⟩ := hfiles f hf
          exact ⟨d1, m2, (hsame f hf) ▸ h1⟩
      · rw [hdir]
        have hmap : rest.map (entryOf P w1) = rest.map (entryOf P w) :=
          List.map_congr_left (fun f hf => entryOf_congr P w w1 f (hsame f hf))
        have hhead : entryOf P w file = entryFor P file d m := by
          unfold entryOf
          rw [hfile]
        simp [hmap, hhead]

/-- A successful `ZipFiles` of files other than the output, whose output can then be opened
as an archive: every input is a regular file and the archive lists one entry per input, in
order; only the output changed. -/
theorem ZipFiles_ok (P : Platform) (w : World) (archive : String) (files : List String)
    (r : ZipReader) (hzip : (ZipFiles P w archive files).1 = none)
    (harch : ∀ f ∈ files, P.resolve f ≠ P.resolve archive)
    (hbase : ∀ f ∈ files, endsWithSlash (P.base f) = false)
    (hopen : zipOpenReader P (ZipFiles P w archive files).2 archive = .ok r) :
    (∀ f ∈ files, ∃ d m, w.fs (P.resolve f) = some (.file d m)) ∧
    r.File = files.map (entryOf P w) ∧
    (∀ k, k ≠ P.resolve archive → (ZipFiles P w archive files).2.fs k = w.fs k) ∧
    (ZipFiles P w archive files).2.umask = w.umask := by
  obtain ⟨m0, hr⟩ := zipOpenReader_ok P _ archive r hopen
  unfold ZipFiles at hzip hr ⊢
  have hname := OpenFile_name P w archive O_RDWR_CREATE_TRUNC 0o666
  have hres := OpenFile_create_trunc_ok P w archive 0o666
  have hoth := OpenFile_fs_other P w archive O_RDWR_CREATE_TRUNC 0o666
  have hum := OpenFile_umask P w archive O_RDWR_CREATE_TRUNC 0o666
  rcases hC : Create P w archive with ⟨rc, w1⟩
  have hC1 : OpenFile P w archive O_RDWR_CREATE_TRUNC 0o666 = (rc, w1) := hC
  have hC2 : OpenFile P w archive ⟨true, true, true⟩ 0o666 = (rc, w1) := hC
  rw [hC] at hzip hr
  rw [hC1] at hname hoth hum
  rw [hC2] at hres
  simp only at hname hres hoth hum
  cases rc with
  | error err => simp at hzip
  | ok newZipFile =>
    have := hname _ rfl
    subst this
    obtain ⟨m1, hka⟩ := hres _ rfl
    simp only at hzip hr ⊢
    have hloop := zipFilesLoop_ok P files w1 (NewWriter ⟨archive⟩) (.bytes []) m1 hka (by simp)
      harch hbase
    rcases hL : zipFilesLoop P w1 (NewWriter ⟨archive⟩) files with ⟨err, zw, w2⟩
    rw [hL] at hzip hr hloop
    simp only at hzip hr hloop ⊢
    obtain ⟨hfiles, hzw, ⟨c1, hc1, hnot⟩, hfr, hu⟩ := hloop hzip
    subst hzw
    have hsame : ∀ f ∈ files, w1.fs (P.resolve f) = w.fs (P.resolve f) :=
      fun f hf => hoth _ (harch f hf)
    have hmap : files.map (entryOf P w1) = files.map (entryOf P w) :=
      List.map_congr_left (fun f hf => entryOf_congr P w w1 f (hsame f hf))
    unfold ZipWriter.Close at hr ⊢
    simp only [NewWriter, List.nil_append] at hr hc1 hfr ⊢
    cases hF : w2.fault .zipClose archive with
    | some e =>
      simp only [hF] at hr
      rw [hc1] at hr
      simp only [Option.some.injEq, Node.file.injEq] at hr
      exact absurd hr.1 (hnot _)
    | none =>
      simp only [hF] at hr ⊢
      rw [putData_fs_file _ _ _ _ _ hc1] at hr
      simp only [Option.some.injEq, Node.file.injEq, Content.archive.injEq, and_true] at hr
      refine ⟨fun f hf => ?_, by rw [← hr.1, hmap], fun k hk => ?_, ?_⟩
      · obtain ⟨d, m, h1⟩ := hfiles f hf
        exact ⟨d, m, (hsame f hf) ▸ h1⟩
      · rw [putData_fs_other _ _ _ _ hk, hfr k hk, hoth k hk]
      · rw [putData_umask, hu, hum]

theorem gained_trans (w w1 w2 : World) (k : String)
    (h1 : w1.fs k = w.fs k ∨ (w.fs k = none ∧ ∃ m, w1.fs k = some (.dir m)))
    (h2 : w2.fs k = w1.fs k ∨ (w1.fs k = none ∧ ∃ m, w2.fs k = some (.dir m))) :
    w2.fs k = w.fs k ∨ (w.fs k = none ∧ ∃ m, w2.fs k = some (.dir m)) := by
  rcases h1 with a | ⟨a, m, b⟩
  · rcases h2 with c | ⟨c, m, d⟩
    · exact Or.inl (c.trans a)
    · exact Or.inr ⟨a ▸ c, m, d⟩
  · rcases h2 with c | ⟨c, m1, d⟩
    · exact Or.inr ⟨a, m, c.trans b⟩
    · rw [b] at c
      simp at c

/-- Whatever its outcome, the loop of `Unzip` leaves every name that is not the target of a
file entry as it was, or makes a directory at it when it was free. -/
theorem unzipLoop_frame (P : Platform) (r : ZipReader) (dest : String) (es : List Entry) :
    ∀ (w : World) (k : String), (∀ e ∈ es, e.header.IsDir = false → k ≠ target P dest e) →
      (unzipLoop P r dest w es).2.fs k = w.fs k ∨
        (w.fs k = none ∧ ∃ m, (unzipLoop P r dest w es).2.fs k = some (.dir m)) := by
  induction es with
  | nil =>
    intro w k _
    exact Or.inl rfl
  | cons f rest ih =>
    intro w k hk
    have hrest : ∀ e ∈ rest, e.header.IsDir = false → k ≠ target P dest e :=
      fun e he => hk e (by simp [he])
    unfold unzipLoop
    cases hO : zipEntryOpen P w r f with
    | error err => exact Or.inl rfl
    | ok rc =>
      simp only
      cases hdir : f.header.IsDir with
      | true =>
        simp only [if_true]
        exact gained_trans _ _ _ k ((MkdirAll_grows P w _ _).2 k) (ih _ k hrest)
      | false =>
        have hkf : k ≠ P.resolve (P.join dest f.header.name) := hk f (by simp) hdir
        simp only [Bool.false_eq_true, if_false]
        generalize (if LastIndex (P.join dest f.header.name) P.pathSeparator > -1
          then sliceTo (P.join dest f.header.name)
            (LastIndex (P.join dest f.header.name) P.pathSeparator).toNat
          else "") = fdir
        have hg := (MkdirAll_grows P w fdir f.header.Mode).2 k
        rcases hM : MkdirAll P w fdir f.header.Mode with ⟨r1, w1⟩
        rw [hM] at hg
        cases r1 with
        | some err => exact hg
        | none =>
          simp only
          have hoth := OpenFile_fs_other P w1 (P.join dest f.header.name) O_WRONLY_CREATE_TRUNC
            f.header.Mode k hkf
          have hname := OpenFile_name P w1 (P.join dest f.header.name) O_WRONLY_CREATE_TRUNC
            f.header.Mode
          rcases hF : OpenFile P w1 (P.join dest f.header.name) O_WRONLY_CREATE_TRUNC
            f.header.Mode with ⟨r2, w2⟩
          rw [hF] at hoth hname
          simp only at hoth hname
          cases r2 with
          | error err =>
            simp only
            rw [hoth]
            exact hg
          | ok o =>
            have := hname o rfl
            subst this
            simp only
            have hcoth := ioCopyFromEntry_fs_other P w2 ⟨P.join dest f.header.name⟩ rc k hkf
            rcases hC : ioCopyFromEntry P w2 ⟨P.join dest f.header.name⟩ rc with ⟨r3, w3⟩
            rw [hC] at hcoth
            simp only at hcoth
            have hg3 : w3.fs k = w.fs k ∨ (w.fs k = none ∧ ∃ m, w3.fs k = some (.dir m)) := by
              rw [hcoth, hoth]
              exact hg
            cases r3 with
            | some err => exact hg3
            | none => exact gained_trans _ _ _ k hg3 (ih w3 k hrest)

theorem entryFor_not_dir (P : Platform) (file : String) (d : Content) (m : Nat)
    (h : endsWithSlash (P.base file) = false) : (entryFor P file d m).header.IsDir = false := by
  simp [entryFor, FileHeader.IsDir, h]

/-- The data that a successful run of the loop of `Unzip` leaves at a name, over entries
that are not directories: when every entry written to that name has the data `d`, and the
name held `d` before or some entry is written to it, the name holds `d` afterwards. -/
theorem unzipLoop_data (P : Platform) (r : ZipReader) (dest : String) (t : String)
    (d : Content) (es : List Entry) :
    ∀ (w : World) (out : Outcome × World), unzipLoop P r dest w es = out →
      out.1 = .returned none → (∀ e ∈ es, e.header.IsDir = false) →
      (∀ e ∈ es, target P dest e = t → e.data = d) →
      (dataAt w t = some d ∨ ∃ e ∈ es, target P dest e = t) →
      dataAt out.2 t = some d := by
  induction es with
  | nil =>
    intro w out h _ _ _ hd
    unfold unzipLoop at h
    subst h
    rcases hd with hd | ⟨e, he, _⟩
    · exact hd
    · simp at he
  | cons f rest ih =>
    intro w out h hout hdir hdata hd
    obtain ⟨w3, h3, _, ⟨m1, hf, _⟩, hframe⟩ :=
      unzip_step P r dest w f rest out (hdir f (by simp)) h hout
    refine ih w3 out h3 hout (fun e he => hdir e (by simp [he]))
      (fun e he => hdata e (by simp [he])) ?_
    by_cases hft : target P dest f = t
    · left
      unfold dataAt
      rw [← hft, hf, hdata f (by simp) hft]
    · rcases hd with hd | ⟨e, he, het⟩
      · left
        have hne : t ≠ target P dest f := fun h1 => hft h1.symm
        unfold dataAt at hd ⊢
        rcases hframe t hne with a | ⟨a, _⟩
        · rw [a]
          exact hd
        · rw [a] at hd
          simp at hd
      · rcases List.mem_cons.1 he with he | he
        · subst he
          exact absurd het hft
        · exact Or.inr ⟨e, he, het⟩

/-- Whatever its outcome, `addFileToZip` changes no name other than the output and keeps
the file of the writer. -/
theorem addFileToZip_fs_other (P : Platform) (w : World) (zw : ZipWriter) (file : String)
    (k : String) (hk : k ≠ P.resolve zw.file.name) :
    (addFileToZip P w zw file).2.2.fs k = w.fs k ∧
      (addFileToZip P w zw file).2.1.file = zw.file := by
  have hopen : (Open P w file).2 = w := OpenFile_plain_world P w file false 0
  unfold addFileToZip
  rcases hO : Open P w file with ⟨r, w1⟩
  rw [hO] at hopen
  simp only at hopen
  subst hopen
  cases r with
  | error err => exact ⟨rfl, rfl⟩
  | ok fileToZip =>
    simp only
    cases hS : Stat P w1 fileToZip.name with
    | error err => exact ⟨rfl, rfl⟩
    | ok info =>
      simp only
      unfold CreateHeader
      cases hF : w1.fault .zipCreateHeader zw.file.name with
      | some e => exact ⟨rfl, rfl⟩
      | none =>
        simp only
        unfold ioCopyToEntry
        simp only [putData_fault]
        cases hR : w1.fault .read fileToZip.name with
        | some e => exact ⟨putData_fs_other _ _ _ _ hk, rfl⟩
        | none =>
          simp only
          split
          · exact ⟨putData_fs_other _ _ _ _ hk, rfl⟩
          · exact ⟨putData_fs_other _ _ _ _ hk, rfl⟩
          · split
            · split
              · exact ⟨putData_fs_other _ _ _ _ hk, rfl⟩
              · exact ⟨putData_fs_other _ _ _ _ hk, rfl⟩
            · split
              · exact ⟨putData_fs_other _ _ _ _ hk, rfl⟩
              · refine ⟨?_, rfl⟩
                rw [putData_fs_other _ _ _ _ hk, putData_fs_other _ _ _ _ hk]

theorem zipFilesLoop_fs_other (P : Platform) (files : List String) :
    ∀ (w : World) (zw : ZipWriter) (k : String), k ≠ P.resolve zw.file.name →
      (zipFilesLoop P w zw files).2.2.fs k = w.fs k ∧
        (zipFilesLoop P w zw files).2.1.file = zw.file := by
  induction files with
  | nil =>
    intro w zw k _
    exact ⟨rfl, rfl⟩
  | cons file rest ih =>
    intro w zw k hk
    unfold zipFilesLoop
    have hadd := addFileToZip_fs_other P w zw file k hk
    rcases hA : addFileToZip P w zw file with ⟨r, zw1, w1⟩
    rw [hA] at hadd
    simp only at hadd
    cases r with
    | some err => exact hadd
    | none =>
      simp only
      have := ih w1 zw1 k (by rw [hadd.2]; exact hk)
      exact ⟨this.1.trans hadd.1, this.2.trans hadd.2⟩

/-- Whatever its outcome, `ZipFiles` changes no name other than the output. -/
theorem ZipFiles_fs_other (P : Platform) (w : World) (archive : String) (files : List String)
    (k : String) (hk : k ≠ P.resolve archive) : (ZipFiles P w archive files).2.fs k = w.fs k := by
  unfold ZipFiles
  have hname := OpenFile_name P w archive O_RDWR_CREATE_TRUNC 0o666
  have hoth := OpenFile_fs_other P w archive O_RDWR_CREATE_TRUNC 0o666 k hk
  rcases hC : Create P w archive with ⟨rc, w1⟩
  have hC1 : OpenFile P w archive O_RDWR_CREATE_TRUNC 0o666 = (rc, w1) := hC
  rw [hC1] at hname hoth
  simp only at hname hoth
  cases rc with
  | error err => exact hoth
  | ok newZipFile =>
    have := hname _ rfl
    subst this
    simp only
    have hloop := zipFilesLoop_fs_other P files w1 (NewWriter ⟨archive⟩) k hk
    rcases hL : zipFilesLoop P w1 (NewWriter ⟨archive⟩) files with ⟨err, zw, w2⟩
    rw [hL] at hloop
    simp only at hloop ⊢
    unfold ZipWriter.Close
    split
    · exact hloop.1.trans hoth
    · rw [putData_fs_other _ _ _ _ (by rw [hloop.2]; exact hk)]
      exact hloop.1.trans hoth

/-- A regular file found after `ZipFiles` and `Unzip` at a name that is neither the archive
nor the target of a file entry was there, with the same data and bits, before both. -/
theorem round_trip_elsewhere (P : Platform) (w : World) (archive : String)
    (files : List String) (dest : String) (r : ZipReader) (k : String) (d : Content) (m : Nat)
    (hopen : zipOpenReader P (ZipFiles P w archive files).2 archive = .ok r)
    (hk : ∀ e ∈ r.File, e.header.IsDir = false → k ≠ target P dest e)
    (hka : k ≠ P.resolve archive)
    (h : (Unzip P (ZipFiles P w archive files).2 archive dest).2.fs k = some (.file d m)) :
    w.fs k = some (.file d m) := by
  unfold Unzip at h
  rw [hopen] at h
  simp only at h
  rw [← ZipFiles_fs_other P w archive files k hka]
  rcases unzipLoop_frame P r dest r.File _ k hk with a | ⟨_, m1, b⟩
  · rw [← a]
    exact h
  · rw [h] at b
    simp at b

/-! ## Facts about the names extraction changes -/

theorem isCutPrefix_iff (sep : Char) (q p : String) :
    isCutPrefix sep q p = true ↔ (q = p ∨ ∃ rest, p.data = q.data ++ sep :: rest) := by
  unfold isCutPrefix
  simp only [Bool.or_eq_true, decide_eq_true_eq, List.isPrefixOf_iff_prefix]
  constructor
  · rintro (h | ⟨t, ht⟩)
    · exact Or.inl h
    · exact Or.inr ⟨t, by rw [← ht]; simp⟩
  · rintro (h | ⟨t, ht⟩)
    · exact Or.inl h
    · exact Or.inr ⟨t, by rw [ht]; simp⟩

theorem cut_trans (sep : Char) (q p1 p : String)
    (h1 : q = p1 ∨ ∃ rest, p1.data = q.data ++ sep :: rest)
    (h2 : ∃ rest, p.data = p1.data ++ sep :: rest) :
    ∃ rest, p.data = q.data ++ sep :: rest := by
  obtain ⟨r2, h2⟩ := h2
  rcases h1 with h1 | ⟨r1, h1⟩
  · subst h1
    exact ⟨r2, h2⟩
  · exact ⟨r1 ++ sep :: r2, by rw [h2, h1]; simp⟩

/-- The parent that `MkdirAll` computes is what precedes a separator of the path. -/
theorem scanBackElement_cut (sep : Char) (cs : List Char) (i : Nat)
    (h : 1 ≤ scanBackElement sep cs i) :
    ∃ rest, cs = cs.take (scanBackElement sep cs i - 1) ++ sep :: rest := by
  have hdef : scanBackElement sep cs i
      = ((cs.take i).reverse.dropWhile (fun c => decide (c ≠ sep))).length := rfl
  rw [hdef] at h ⊢
  have hsplit := List.takeWhile_append_dropWhile (fun c => decide (c ≠ sep)) (cs.take i).reverse
  cases hb : (cs.take i).reverse.dropWhile (fun c => decide (c ≠ sep)) with
  | nil =>
    rw [hb] at h
    simp at h
  | cons x b =>
    have hx : x = sep := by
      have := List.head_dropWhile_not (fun c => decide (c ≠ sep)) (cs.take i).reverse
        (by rw [hb]; simp)
      simp only [hb, List.head_cons] at this
      simpa using this
    subst hx
    rw [hb] at hsplit
    have hl : cs.take i = b.reverse ++ x ::
        ((cs.take i).reverse.takeWhile (fun c => decide (c ≠ x))).reverse := by
      have := congrArg List.reverse hsplit
      simp only [List.reverse_append, List.reverse_cons, List.reverse_reverse,
        List.append_assoc, List.singleton_append] at this
      exact this.symm
    have hcs : ∃ T, cs = b.reverse ++ x :: T := by
      refine ⟨((cs.take i).reverse.takeWhile (fun c => decide (c ≠ x))).reverse ++ cs.drop i, ?_⟩
      conv_lhs => rw [← List.take_append_drop i cs, hl]
      simp
    obtain ⟨T, hT⟩ := hcs
    have hlen : (x :: b).length - 1 = b.reverse.length := by simp
    refine ⟨T, ?_⟩
    rw [hlen]
    conv_rhs => rw [hT, List.take_left' rfl]
    exact hT

theorem lastIndexFrom_cut (c : Char) (l : List Char) :
    ∀ (i : Nat) (acc : Option Nat) (n : Nat), lastIndexFrom c l i acc = some n →
      acc = some n ∨ ∃ A R, l = A ++ c :: R ∧ n = i + A.length := by
  induction l with
  | nil =>
    intro i acc n h
    exact Or.inl h
  | cons x xs ih =>
    intro i acc n h
    unfold lastIndexFrom at h
    rcases ih _ _ n h with h1 | ⟨A, R, h1, h2⟩
    · by_cases hx : x = c
      · simp only [hx, if_true, Option.some.injEq] at h1
        exact Or.inr ⟨[], xs, by simp [hx], by simp [h1]⟩
      · simp only [hx, if_false] at h1
        exact Or.inl h1
    · exact Or.inr ⟨x :: A, R, by simp [h1], by simp [h2]; omega⟩

/-- The directory part that `Unzip` takes of a path is empty or what precedes a separator
of the path. -/
theorem fdir_cut (sep : Char) (fpath : String) :
    (if LastIndex fpath sep > -1 then sliceTo fpath (LastIndex fpath sep).toNat else "") = "" ∨
    ∃ rest, fpath.data = (if LastIndex fpath sep > -1
      then sliceTo fpath (LastIndex fpath sep).toNat else "").data ++ sep :: rest := by
  unfold LastIndex
  cases h : lastIndexFrom sep fpath.data 0 none with
  | none => exact Or.inl (by simp)
  | some n =>
    rcases lastIndexFrom_cut sep fpath.data 0 none n h with h1 | ⟨A, R, h1, h2⟩
    · simp at h1
    · refine Or.inr ⟨R, ?_⟩
      have hn : n = A.length := by omega
      subst hn
      have hpos : ((A.length : Nat) : Int) > -1 := by omega
      simp only [hpos, if_true, Int.toNat_ofNat, sliceTo]
      conv_lhs => rw [h1]
      rw [h1, List.take_left' rfl]

theorem Mkdir_changes (P : Platform) (w : World) (name : String) (perm : Nat) (k : String)
    (h : (Mkdir P w name perm).2.fs k ≠ w.fs k) : k = P.resolve name ∧ name ≠ "" := by
  unfold Mkdir at h
  by_cases h0 : name = ""
  · simp [h0] at h
  · refine ⟨?_, h0⟩
    cases h1 : w.fault .mkdir name with
    | some e => simp [h0, h1] at h
    | none =>
      cases h2 : w.fs (P.resolve name) with
      | some n => simp [h0, h1, h2] at h
      | none =>
        by_contra hk
        simp [h0, h1, h2, hk] at h

/-- Every name that `MkdirAll` changes is the resolved name of the path or of what precedes
one of its separators. -/
theorem MkdirAllAux_changes (P : Platform) (perm : Nat) :
    ∀ (fuel : Nat) (w : World) (p : String) (k : String),
      (MkdirAllAux P perm fuel w p).2.fs k ≠ w.fs k →
      ∃ q : String, q ≠ "" ∧ (q = p ∨ ∃ rest, p.data = q.data ++ P.pathSeparator :: rest) ∧
        k = P.resolve q := by
  intro fuel
  induction fuel with
  | zero =>
    intro w p k h
    exact absurd rfl h
  | succ fuel ih =>
    intro w p k h
    unfold MkdirAllAux at h
    cases hS : Stat P w p with
    | ok dir =>
      simp only [hS] at h
      split at h <;> exact absurd rfl h
    | error e =>
      simp only [hS] at h
      have hpar : ∀ x : Option GoError × World,
          x = (if scanBackElement P.pathSeparator p.data
                (skipTrailingSeparators P.pathSeparator p.data) > 1
              then MkdirAllAux P perm fuel w (sliceTo p
                (scanBackElement P.pathSeparator p.data
                  (skipTrailingSeparators P.pathSeparator p.data) - 1))
              else (none, w)) → x.2.fs k ≠ w.fs k →
          ∃ q : String, q ≠ "" ∧ (∃ rest, p.data = q.data ++ P.pathSeparator :: rest) ∧
            k = P.resolve q := by
        intro x hx hne
        subst hx
        split at hne
        · rename_i hj
          obtain ⟨q, hq, hcut, hk⟩ := ih w _ k hne
          have hc := scanBackElement_cut P.pathSeparator p.data
            (skipTrailingSeparators P.pathSeparator p.data) (by omega)
          exact ⟨q, hq, cut_trans P.pathSeparator q _ p hcut hc, hk⟩
        · exact absurd rfl hne
      generalize (if scanBackElement P.pathSeparator p.data
                (skipTrailingSeparators P.pathSeparator p.data) > 1
              then MkdirAllAux P perm fuel w (sliceTo p
                (scanBackElement P.pathSeparator p.data
                  (skipTrailingSeparators P.pathSeparator p.data) - 1))
              else (none, w)) = x at hpar h
      have hx := hpar x rfl
      rcases x with ⟨r, w1⟩
      simp only at hx
      have hfin : ∀ w2 : World, (w2 = w1 ∨ w2 = (Mkdir P w1 p perm).2) → w2.fs k ≠ w.fs k →
          ∃ q : String, q ≠ "" ∧
            (q = p ∨ ∃ rest, p.data = q.data ++ P.pathSeparator :: rest) ∧ k = P.resolve q := by
        intro w2 hw2 hne
        by_cases h1 : w1.fs k = w.fs k
        · rcases hw2 with hw2 | hw2
          · subst hw2
            exact absurd h1 hne
          · subst hw2
            rw [← h1] at hne
            obtain ⟨hk, hp⟩ := Mkdir_changes P w1 p perm k hne
            exact ⟨p, hp, Or.inl rfl, hk⟩
        · obtain ⟨q, hq, hcut, hk⟩ := hx h1
          exact ⟨q, hq, Or.inr hcut, hk⟩
      cases r with
      | some err => exact hfin w1 (Or.inl rfl) h
      | none =>
        simp only at h
        rcases hM : Mkdir P w1 p perm with ⟨r2, w2⟩
        rw [hM] at h
        have hw2 : w2 = (Mkdir P w1 p perm).2 := by rw [hM]
        cases r2 with
        | none => exact hfin w2 (Or.inr hw2) h
        | some err =>
          simp only at h
          refine hfin w2 (Or.inr hw2) ?_
          split at h
          · split at h <;> exact h
          · exact h

theorem MkdirAll_changes (P : Platform) (w : World) (p : String) (perm : Nat) (k : String)
    (h : (MkdirAll P w p perm).2.fs k ≠ w.fs k) :
    ∃ q : String, q ≠ "" ∧ (q = p ∨ ∃ rest, p.data = q.data ++ P.pathSeparator :: rest) ∧
      k = P.resolve q :=
  MkdirAllAux_changes P perm _ w p k h

/-- Every name that the loop of `Unzip` changes is the target of a file entry, or the
resolved name of the joined path of an entry or of what precedes one of its separators. -/
theorem unzipLoop_changes (P : Platform) (r : ZipReader) (dest : String) (es : List Entry) :
    ∀ (w : World) (k : String), (unzipLoop P r dest w es).2.fs k ≠ w.fs k →
      ∃ e ∈ es, (e.header.IsDir = false ∧ k = target P dest e) ∨
        ∃ q : String, q ≠ "" ∧
          (q = P.join dest e.header.name ∨
            ∃ rest, (P.join dest e.header.name).data = q.data ++ P.pathSeparator :: rest) ∧
          k = P.resolve q := by
  induction es with
  | nil =>
    intro w k h
    exact absurd rfl h
  | cons f rest ih =>
    intro w k h
    have hrest : ∀ w1 : World, (unzipLoop P r dest w1 rest).2.fs k ≠ w1.fs k →
        ∃ e ∈ f :: rest, (e.header.IsDir = false ∧ k = target P dest e) ∨
          ∃ q : String, q ≠ "" ∧
            (q = P.join dest e.header.name ∨
              ∃ rest, (P.join dest e.header.name).data = q.data ++ P.pathSeparator :: rest) ∧
            k = P.resolve q := by
      intro w1 h1
      obtain ⟨e, he, h2⟩ := ih w1 k h1
      exact ⟨e, by simp [he], h2⟩
    unfold unzipLoop at h
    cases hO : zipEntryOpen P w r f with
    | error err =>
      simp only [hO] at h
      exact absurd rfl h
    | ok rc =>
      simp only [hO] at h
      cases hdir : f.header.IsDir with
      | true =>
        simp only [hdir, if_true] at h
        by_cases hc : (MkdirAll P w (P.join dest f.header.name) f.header.Mode).2.fs k = w.fs k
        · rw [← hc] at h
          exact hrest _ h
        · obtain ⟨q, hq, hcut, hk⟩ := MkdirAll_changes P w _ _ k hc
          exact ⟨f, by simp, Or.inr ⟨q, hq, hcut, hk⟩⟩
      | false =>
        simp only [hdir, Bool.false_eq_true, if_false] at h
        by_cases hkf : k = target P dest f
        · exact ⟨f, by simp, Or.inl ⟨hdir, hkf⟩⟩
        · have hkf1 : k ≠ P.resolve (P.join dest f.header.name) := hkf
          have hfd := fdir_cut P.pathSeparator (P.join dest f.header.name)
          generalize (if LastIndex (P.join dest f.header.name) P.pathSeparator > -1
            then sliceTo (P.join dest f.header.name)
              (LastIndex (P.join dest f.header.name) P.pathSeparator).toNat
            else "") = fdir at h hfd
          have hmk : (MkdirAll P w fdir f.header.Mode).2.fs k ≠ w.fs k →
              ∃ e ∈ f :: rest, (e.header.IsDir = false ∧ k = target P dest e) ∨
                ∃ q : String, q ≠ "" ∧
                  (q = P.join dest e.header.name ∨
                    ∃ rest, (P.join dest e.header.name).data
                      = q.data ++ P.pathSeparator :: rest) ∧
                  k = P.resolve q := by
            intro hc
            obtain ⟨q, hq, hcut, hk⟩ := MkdirAll_changes P w _ _ k hc
            rcases hfd with hfd | hfd
            · subst hfd
              rcases hcut with hcut | ⟨t, ht⟩
              · exact absurd hcut hq
              · simp at ht
            · exact ⟨f, by simp, Or.inr ⟨q, hq,
                Or.inr (cut_trans P.pathSeparator q fdir _ hcut hfd), hk⟩⟩
          rcases hM : MkdirAll P w fdir f.header.Mode with ⟨r1, w1⟩
          rw [hM] at h hmk
          simp only at hmk
          cases r1 with
          | some err => exact hmk h
          | none =>
            simp only at h
            have hoth := OpenFile_fs_other P w1 (P.join dest f.header.name)
              O_WRONLY_CREATE_TRUNC f.header.Mode k hkf1
            have hname := OpenFile_name P w1 (P.join dest f.header.name) O_WRONLY_CREATE_TRUNC
              f.header.Mode
            rcases hF : OpenFile P w1 (P.join dest f.header.name) O_WRONLY_CREATE_TRUNC
              f.header.Mode with ⟨r2, w2⟩
            rw [hF] at h hoth hname
            simp only at hoth hname
            cases r2 with
            | error err =>
              simp only at h
              rw [hoth] at h
              exact hmk h
            | ok o =>
              have := hname o rfl
              subst this
              simp only at h
              have hcoth := ioCopyFromEntry_fs_other P w2 ⟨P.join dest f.header.name⟩ rc k hkf1
              rcases hC : ioCopyFromEntry P w2 ⟨P.join dest f.header.name⟩ rc with ⟨r3, w3⟩
              rw [hC] at h hcoth
              simp only at hcoth
              have h31 : w3.fs k = w1.fs k := by rw [hcoth, hoth]
              cases r3 with
              | some err =>
                simp only at h
                rw [h31] at h
                exact hmk h
              | none =>
                simp only at h
                by_cases hc : w1.fs k = w.fs k
                · rw [← hc, ← h31] at h
                  exact hrest _ h
                · exact hmk hc

/-! ## Facts about names that stay inside -/

theorem foldl_relStep_none (cs : List (List Char)) : cs.foldl relStep none = none := by
  induction cs with
  | nil => rfl
  | cons c cs ih => simpa [relStep] using ih

/-- Cleaning a name that never climbs above its starting directory, on top of any kept
elements, only adds ordinary elements. -/
theorem foldl_relStep_clean (r : Bool) (cs : List (List Char)) :
    ∀ (s s1 D : List (List Char)), (∀ x ∈ s, plainElem x) →
      cs.foldl relStep (some s) = some s1 →
      cs.foldl (cleanStep r) (D ++ s) = D ++ s1 ∧ ∀ x ∈ s1, plainElem x := by
  induction cs with
  | nil =>
    intro s s1 D hs h
    simp only [List.foldl_nil, Option.some.injEq] at h
    subst h
    exact ⟨rfl, hs⟩
  | cons c cs ih =>
    intro s s1 D hs h
    rw [List.foldl_cons] at h ⊢
    by_cases h1 : c = [] ∨ c = ['.']
    · have e1 : relStep (some s) c = some s := by simp [relStep, h1]
      have e2 : cleanStep r (D ++ s) c = D ++ s := by
        unfold cleanStep
        simp [h1]
      rw [e1] at h
      rw [e2]
      exact ih s s1 D hs h
    · by_cases h2 : c = ['.', '.']
      · subst h2
        rcases List.eq_nil_or_concat s with hnil | ⟨s0, top, hcons⟩
        · subst hnil
          have e1 : relStep (some []) ['.', '.'] = none := by simp [relStep]
          rw [e1, foldl_relStep_none] at h
          simp at h
        · rw [List.concat_eq_append] at hcons
          subst hcons
          have htop : plainElem top := hs top (by simp)
          have e1 : relStep (some (s0 ++ [top])) ['.', '.'] = some s0 := by
            simp [relStep]
          have e2 : cleanStep r (D ++ (s0 ++ [top])) ['.', '.'] = D ++ s0 := by
            have hl : (D ++ (s0 ++ [top])).getLast? = some top := by
              rw [← List.append_assoc]
              simp
            unfold cleanStep
            simp only [hl, htop.2.2, if_false]
            rw [← List.append_assoc]
            simp [List.dropLast_concat]
          rw [e1] at h
          rw [e2]
          exact ih s0 s1 D (fun x hx => hs x (by simp [hx])) h
      · have hp : plainElem c := ⟨fun e => h1 (Or.inl e), fun e => h1 (Or.inr e), h2⟩
        have e1 : relStep (some s) c = some (s ++ [c]) := by
          simp [relStep, hp.1, hp.2.1, hp.2.2]
        rw [e1] at h
        rw [cleanStep_plain r (D ++ s) c hp, List.append_assoc]
        refine ih (s ++ [c]) s1 D ?_ h
        intro x hx
        rcases List.mem_append.1 hx with hx | hx
        · exact hs x hx
        · simp only [List.mem_singleton] at hx
          exact hx ▸ hp

/-- The elements of `Join(dest, name)` before the final cleaning, when `dest` is not empty
and `name` never climbs above its starting directory: those of `dest` followed by ordinary
elements; and the joined text is rooted exactly when `dest` is. -/
theorem join_elems (dest name : String) (hdest : dest ≠ "")
    (hname : staysInside name = true) :
    Join dest name = Clean (dest ++ "/" ++ name) ∧
    (dest ++ "/" ++ name).data.head? = dest.data.head? ∧
    ∃ rest, cleanElems (dest ++ "/" ++ name).data = cleanElems dest.data ++ rest ∧
      ∀ c ∈ rest, plainElem c := by
  have hd : dest.data ≠ [] := fun e => hdest (String.ext e)
  have hJ : Join dest name = Clean (dest ++ "/" ++ name) := by
    unfold Join
    simp [hdest]
  have hhead : (dest ++ "/" ++ name).data.head? = dest.data.head? := by
    rw [append_slash_data]
    cases hdd : dest.data with
    | nil => exact absurd hdd hd
    | cons a r => rfl
  refine ⟨hJ, hhead, ?_⟩
  unfold staysInside at hname
  cases hf : (splitSlash name.data).foldl relStep (some []) with
  | none => simp [hf] at hname
  | some s1 =>
    have := foldl_relStep_clean (decide (dest.data.head? = some '/')) (splitSlash name.data)
      [] s1 (cleanElems dest.data) (by simp) hf
    refine ⟨s1, ?_, this.2⟩
    unfold cleanElems
    rw [hhead, append_slash_data, splitSlash_append_slash, List.foldl_append]
    simpa using this.1

theorem canon_take (r : Bool) (st : List (List Char)) (n : Nat) (h : Canon r st) :
    Canon r (st.take n) := by
  obtain ⟨k, rest, hst, hrest, hk⟩ := h
  subst hst
  refine ⟨min n k, rest.take (n - k), ?_, fun c hc => hrest c (List.mem_of_mem_take hc), ?_⟩
  · rw [List.take_append_eq_append_take, List.take_replicate, List.length_replicate]
  · intro hr
    rw [hk hr]
    simp

/-- What precedes a separator of a cleaned path, or the cleaned path itself: its cleaned
elements are the first elements of the path, and it is rooted exactly when the path is. -/
theorem cut_elems (t q : String) (hq : q ≠ "")
    (hcut : q = Clean t ∨ ∃ rest, (Clean t).data = q.data ++ '/' :: rest) :
    (q.data.head? = some '/' ↔ t.data.head? = some '/') ∧
    ∃ m, cleanElems q.data = (cleanElems t.data).take m := by
  have hqd : q.data ≠ [] := fun e => hq (String.ext e)
  have hcanon := cleanElems_canon t.data
  have hslash := cleanElems_no_slash t.data
  rcases hcut with hcut | ⟨rest, hcut⟩
  · subst hcut
    obtain ⟨h1, h2⟩ := cleanElems_Clean t
    exact ⟨h2, (cleanElems t.data).length, by rw [h1, List.take_length]⟩
  · unfold Clean at hcut
    by_cases hr : t.data.head? = some '/'
    · simp only [hr, if_true] at hcut
      simp only [hr, decide_True] at hcanon
      cases hq1 : q.data with
      | nil => exact absurd hq1 hqd
      | cons a q1 =>
        rw [hq1] at hcut
        simp only [List.cons_append, List.cons.injEq] at hcut
        obtain ⟨ha, hj⟩ := hcut
        subst ha
        have hne : cleanElems t.data ≠ [] := by
          intro e
          rw [e] at hj
          simp [joinSlash] at hj
        have hsp := splitSlash_joinSlash _ hne hslash
        rw [hj, splitSlash_append_slash] at hsp
        have htake : splitSlash q1 = (cleanElems t.data).take (splitSlash q1).length := by
          conv_rhs => rw [← hsp]
          rw [List.take_left' rfl]
        refine ⟨by simp [hr], (splitSlash q1).length, ?_⟩
        show List.foldl _ [] (splitSlash ('/' :: q1)) = _
        simp only [splitSlash, if_true, List.head?_cons, decide_True]
        rw [List.foldl_cons]
        have hstep : cleanStep true [] [] = [] := by simp [cleanStep]
        rw [hstep]
        conv_lhs => rw [htake]
        exact foldl_canon_id true _ (canon_take true _ _ hcanon)
    · simp only [hr, if_false] at hcut
      simp only [hr, decide_False] at hcanon
      cases hst : cleanElems t.data with
      | nil =>
        simp only [hst, if_true] at hcut
        cases hq1 : q.data with
        | nil => exact absurd hq1 hqd
        | cons a q1 =>
          rw [hq1] at hcut
          have := congrArg List.length hcut
          simp at this
      | cons x st =>
        simp only [hst, reduceCtorEq, if_false] at hcut
        rw [hst] at hcanon hslash
        have hx : x ≠ [] := canon_head_ne_nil false x st hcanon
        have hhead : (joinSlash (x :: st)).head? ≠ some '/' := by
          rw [joinSlash_head x st hx]
          intro e
          have := hslash x (by simp)
          cases x with
          | nil => exact hx rfl
          | cons a x =>
            simp only [List.head?_cons, Option.some.injEq] at e
            exact this (by simp [e])
        have hqhead : q.data.head? ≠ some '/' := by
          cases hq1 : q.data with
          | nil => exact absurd hq1 hqd
          | cons a q1 =>
            rw [hcut, hq1] at hhead
            simpa using hhead
        have hsp := splitSlash_joinSlash (x :: st) (by simp) hslash
        rw [hcut, splitSlash_append_slash] at hsp
        have htake : splitSlash q.data = (x :: st).take (splitSlash q.data).length := by
          conv_rhs => rw [← hsp]
          rw [List.take_left' rfl]
        refine ⟨by simp [hr, hqhead], (splitSlash q.data).length, ?_⟩
        show List.foldl _ [] (splitSlash q.data) = _
        simp only [hqhead, decide_False]
        conv_lhs => rw [htake]
        exact foldl_canon_id false _ (canon_take false _ _ hcanon)

theorem liesUnder_of_elems (dest k : String) (rest : List (List Char))
    (hroot : k.data.head? = some '/' ↔ dest.data.head? = some '/')
    (hE : cleanElems k.data = cleanElems dest.data ++ rest) (hR : ['.', '.'] ∉ rest) :
    liesUnder dest k = true := by
  unfold liesUnder
  rw [hE]
  simp [hroot, hR]

/-- Cleaning a path does not change whether it lies under `dest`. -/
theorem liesUnder_Clean (dest p : String) : liesUnder dest (Clean p) = liesUnder dest p := by
  obtain ⟨h1, h2⟩ := cleanElems_Clean p
  unfold liesUnder
  simp only [h1, h2]

/-- Cleaning a path does not change whether it is `dest` or a lexical ancestor of it. -/
theorem beginsElems_Clean (p dest : String) :
    beginsElems (Clean p) dest = beginsElems p dest := by
  obtain ⟨h1, h2⟩ := cleanElems_Clean p
  unfold beginsElems
  simp only [h1, h2]

/-- A name that never climbs above its starting directory is joined to a path under `dest`,
unless `dest` is empty and the name is rooted. -/
theorem staysInside_under (dest name : String) (hname : staysInside name = true)
    (h : dest ≠ "" ∨ name.data.head? ≠ some '/') :
    liesUnder dest (Join dest name) = true := by
  by_cases hdest : dest = ""
  · subst hdest
    have hrel : name.data.head? ≠ some '/' := by
      rcases h with h | h
      · exact absurd rfl h
      · exact h
    unfold Join
    simp only [ne_eq, not_true_eq_false, if_false]
    by_cases hn : name = ""
    · subst hn
      decide
    · simp only [hn, not_false_eq_true, if_true]
      rw [liesUnder_Clean]
      unfold staysInside at hname
      obtain ⟨s1, hs1⟩ := Option.isSome_iff_exists.1 hname
      obtain ⟨hE, hR⟩ := foldl_relStep_clean (decide (name.data.head? = some '/'))
        (splitSlash name.data) [] s1 [] (by simp) hs1
      refine liesUnder_of_elems "" name s1 ?_ ?_ (fun hm => (hR _ hm).2.2 rfl)
      · simp [hrel]
      · have h0 : cleanElems "".data = [] := by decide
        rw [h0]
        simpa [cleanElems] using hE
  · obtain ⟨hJ, hhead, R, hE, hR⟩ := join_elems dest name hdest hname
    rw [hJ, liesUnder_Clean]
    exact liesUnder_of_elems dest _ R (by rw [hhead]) hE (fun hm => (hR _ hm).2.2 rfl)

/-- A base name is the root or has no slash. -/
theorem Base_no_slash (f : String) : Base f = "/" ∨ '/' ∉ (Base f).data := by
  unfold Base
  by_cases hf : f = ""
  · simp [hf]
  · simp only [hf, if_false]
    cases hl : (splitSlash (f.data.reverse.dropWhile (fun c => c = '/')).reverse).getLast? with
    | none => exact Or.inl rfl
    | some x =>
      cases x with
      | nil => exact Or.inl rfl
      | cons c r =>
        right
        exact splitSlash_no_slash _ _ (List.mem_of_getLast?_eq_some hl)

/-- The base name of a file, joined to `dest`, lies under `dest`, unless it is the root or
`..`. -/
theorem Base_under (dest f : String) (hslash : endsWithSlash (Base f) = false)
    (hdd : Base f ≠ "..") : liesUnder dest (Join dest (Base f)) = true := by
  have hno : '/' ∉ (Base f).data := by
    rcases Base_no_slash f with h | h
    · rw [h] at hslash
      exact absurd hslash (by decide)
    · exact h
  have hdd1 : (Base f).data ≠ ['.', '.'] := fun e => hdd (String.ext e)
  have hrel : (Base f).data.head? ≠ some '/' := by
    intro e
    cases hd : (Base f).data with
    | nil => simp [hd] at e
    | cons c r =>
      rw [hd] at e hno
      simp only [List.head?_cons, Option.some.injEq] at e
      exact hno (by simp [e])
  refine staysInside_under dest (Base f) ?_ (Or.inr hrel)
  unfold staysInside
  rw [splitSlash_of_no_slash _ hno]
  simp only [List.foldl_cons, List.foldl_nil, relStep]
  by_cases h1 : (Base f).data = [] ∨ (Base f).data = ['.']
  · simp [h1]
  · simp [h1, hdd1]

/-- What precedes a separator of a cleaned path that lies under `dest` lies under `dest` or
is a lexical ancestor of `dest`. -/
theorem under_or_above (dest t q : String) (hunder : liesUnder dest (Clean t) = true)
    (hq : q ≠ "") (hcut : q = Clean t ∨ ∃ rest, (Clean t).data = q.data ++ '/' :: rest) :
    liesUnder dest (Clean q) = true ∨ beginsElems (Clean q) dest = true := by
  rw [liesUnder_Clean] at hunder ⊢
  rw [beginsElems_Clean]
  obtain ⟨hroot, m, hm⟩ := cut_elems t q hq hcut
  unfold liesUnder at hunder
  simp only [Bool.and_eq_true, decide_eq_true_eq, Bool.not_eq_true', List.isPrefixOf_iff_prefix]
    at hunder
  obtain ⟨⟨hr, R, hE⟩, hno⟩ := hunder
  have hroot1 : q.data.head? = some '/' ↔ dest.data.head? = some '/' := hroot.trans hr.symm
  rw [← hE] at hno hm
  rw [List.drop_left] at hno
  have hR : ['.', '.'] ∉ R := by
    intro hmem
    have hc : R.contains ['.', '.'] = true := by simp [hmem]
    rw [hno] at hc
    exact Bool.false_ne_true hc
  by_cases hlen : (cleanElems dest.data).length ≤ m
  · left
    refine liesUnder_of_elems dest q (R.take (m - (cleanElems dest.data).length))
      hroot1 ?_ (fun hc => hR (List.mem_of_mem_take hc))
    rw [hm, List.take_append_eq_append_take, List.take_of_length_le hlen]
  · right
    unfold beginsElems
    rw [hm, List.take_append_eq_append_take]
    have h0 : m - (cleanElems dest.data).length = 0 := by omega
    simp [hroot1, h0, List.isPrefixOf_iff_prefix, List.take_prefix]

/-- The result of `Join` is empty or a cleaned path. -/
theorem Join_cleaned (a b : String) : Join a b = "" ∨ ∃ t, Join a b = Clean t := by
  unfold Join
  by_cases ha : a = ""
  · by_cases hb : b = ""
    · simp [ha, hb]
    · exact Or.inr ⟨b, by simp [ha, hb]⟩
  · exact Or.inr ⟨a ++ "/" ++ b, by simp [ha]⟩

/-! ## The claims -/

/-- C2, evaluated on the sample Unix world: `DeleteFile` on `/nonexistent`, where no file
exists, returns the not-found error of its read/write probe instead of success; and after a
first `DeleteFile` of `a.txt` has succeeded, a second one returns that error too. -/
theorem DeleteFile_missing_file_is_an_error :
    (DeleteFile unix sampleWorld "/nonexistent").1
      = some (.path "open" "/nonexistent" .ENOENT) ∧
    (DeleteFile unix sampleWorld "a.txt").1 = none ∧
    (DeleteFile unix (DeleteFile unix sampleWorld "a.txt").2 "a.txt").1
      = some (.path "open" "a.txt" .ENOENT) := by
  decide

/-- C3, counterexample: moving `a.txt` onto itself succeeds and the file is still there
afterwards, so a successful move does not always leave the source path without a file. -/
theorem MoveFile_onto_itself_keeps_source :
    (MoveFile unix sampleWorld "a.txt" "a.txt").1 = none ∧
    (MoveFile unix sampleWorld "a.txt" "a.txt").2.fs (unix.resolve "a.txt")
      = some (.file (.bytes [1, 2]) 0o644) :=
  ⟨by decide, rfl⟩

/-- C3, amended: when `src` and `dst` do not denote the same file (same volume or not) and
`MoveFile(src, dst)` returns success, `dst` holds what `src` held before the call (data and
permission bits) and nothing exists at `src` afterwards. -/
theorem MoveFile_between_distinct_files (P : Platform) (w : World) (src dst : String)
    (hne : P.resolve src ≠ P.resolve dst) (h : (MoveFile P w src dst).1 = none) :
    ∃ n, w.fs (P.resolve src) = some n ∧
      (MoveFile P w src dst).2.fs (P.resolve dst) = some n ∧
      (MoveFile P w src dst).2.fs (P.resolve src) = none := by
  have hne1 : P.resolve dst ≠ P.resolve src := fun e => hne e.symm
  by_cases hvol : P.volumeName src = P.volumeName dst
  · unfold MoveFile at h ⊢
    rw [if_pos hvol] at h ⊢
    rcases hR : Rename P w src dst with ⟨r, w1⟩
    rw [hR] at h
    cases r with
    | some e => simp at h
    | none =>
      have := Rename_ok P w src dst hne (by rw [hR])
      rw [hR] at this
      exact this
  · cases hO : (OpenFile P w src O_RDWR 0o666).1 with
    | error e =>
      rcases MoveFile_cross_volume_abort P w src dst e hvol (Or.inl hO) with h1 | h1 <;>
        rw [h1] at h <;> simp at h
    | ok f =>
      have hn : src ≠ "" := (OpenFile_RDWR_ok P w src 0o666 f hO).1
      cases hcl : f.Close w with
      | some e =>
        rcases MoveFile_cross_volume_abort P w src dst e hvol (Or.inr (Or.inl ⟨f, hO, hcl⟩))
          with h1 | h1 <;> rw [h1] at h <;> simp at h
      | none =>
        cases hcopy : (CopyFile P w src dst).1 with
        | some e =>
          rcases MoveFile_cross_volume_abort P w src dst e hvol
            (Or.inr (Or.inr ⟨f, hO, hcl, hcopy⟩)) with h1 | h1 <;> rw [h1] at h <;> simp at h
        | none =>
          obtain ⟨d, m, hs, hd⟩ := CopyFile_ok P w src dst hne hcopy
          have hstep := MoveFile_cross_volume_steps P w src dst f hvol hO hcl hcopy
          have hother := Remove_fs_other P (CopyFile P w src dst).2 src (P.resolve dst) hne1
          rw [hstep] at h ⊢
          refine ⟨_, hs, ?_⟩
          rcases Remove_result P (CopyFile P w src dst).2 src with ⟨h1, h2⟩ | ⟨e, h1, h2⟩
          · rcases hR : Remove P (CopyFile P w src dst).2 src with ⟨r1, w3⟩
            rw [hR] at h1 h2 hother
            simp only at h1 h2 hother
            subst h1
            exact ⟨by simp only [hother, hd], h2⟩
          · rcases hR : Remove P (CopyFile P w src dst).2 src with ⟨r1, w3⟩
            rw [hR] at h1 h2 hother h
            simp only at h1 h2 hother h
            subst h1
            by_cases he : e = .ENOENT
            · simp only [IsNotExist, he, decide_True, if_true, println_fs]
              exact ⟨by rw [hother, hd], h2 he hn⟩
            · simp [IsNotExist, he] at h

/-- Witness for C3: moving `a.txt` to `b.txt` in the sample Unix world. -/
theorem MoveFile_between_distinct_files_witness :
    unix.resolve "a.txt" ≠ unix.resolve "b.txt" ∧
    (MoveFile unix sampleWorld "a.txt" "b.txt").1 = none ∧
    ∃ n, sampleWorld.fs (unix.resolve "a.txt") = some n ∧
      (MoveFile unix sampleWorld "a.txt" "b.txt").2.fs (unix.resolve "b.txt") = some n ∧
      (MoveFile unix sampleWorld "a.txt" "b.txt").2.fs (unix.resolve "a.txt") = none :=
  ⟨by decide, by decide,
    MoveFile_between_distinct_files unix sampleWorld "a.txt" "b.txt" (by decide) (by decide)⟩

/-- C4, counterexample: copying `a.txt` (bytes 1, 2) onto itself returns success and leaves
the file empty, so the destination does not hold the data the source had at call time. -/
theorem CopyFile_onto_itself_empties_file :
    sampleWorld.fs (unix.resolve "a.txt") = some (.file (.bytes [1, 2]) 0o644) ∧
    (CopyFile unix sampleWorld "a.txt" "a.txt").1 = none ∧
    (CopyFile unix sampleWorld "a.txt" "a.txt").2.fs (unix.resolve "a.txt")
      = some (.file (.bytes []) 0o644) :=
  ⟨rfl, by decide, rfl⟩

/-- C4, amended: when `src` and `dst` do not denote the same file and `CopyFile(src, dst)`
returns success, `src` was a regular file and `dst` is a regular file with the data and
the permission bits that `src` had at call time. -/
theorem CopyFile_between_distinct_files (P : Platform) (w : World) (src dst : String)
    (hne : P.resolve src ≠ P.resolve dst) (h : (CopyFile P w src dst).1 = none) :
    ∃ d m, w.fs (P.resolve src) = some (.file d m) ∧
      (CopyFile P w src dst).2.fs (P.resolve dst) = some (.file d m) :=
  CopyFile_ok P w src dst hne h

/-- Witness for C4: copying `d/a.txt` (mode 0600) to `out/copy.txt` in the sample world. -/
theorem CopyFile_between_distinct_files_witness :
    unix.resolve "d/a.txt" ≠ unix.resolve "out/copy.txt" ∧
    (CopyFile unix sampleWorld "d/a.txt" "out/copy.txt").1 = none ∧
    ∃ d m, sampleWorld.fs (unix.resolve "d/a.txt") = some (.file d m) ∧
      (CopyFile unix sampleWorld "d/a.txt" "out/copy.txt").2.fs (unix.resolve "out/copy.txt")
        = some (.file d m) :=
  ⟨by decide, by decide,
    CopyFile_between_distinct_files unix sampleWorld "d/a.txt" "out/copy.txt"
      (by decide) (by decide)⟩

/-- C5: when the source cannot be opened for reading, `CopyFile` returns the error of that
open and leaves the file system unchanged, so no destination file is created. -/
theorem CopyFile_unopenable_source (P : Platform) (w : World) (src dst : String) (err : GoError)
    (h : (Open P w src).1 = .error err) :
    (CopyFile P w src dst).1 = some err ∧ (CopyFile P w src dst).2.fs = w.fs := by
  have hopen : (Open P w src).2 = w := OpenFile_plain_world P w src false 0
  unfold CopyFile
  rcases hO : Open P w src with ⟨r, w0⟩
  rw [hO] at hopen h
  simp only at hopen h
  subst hopen h
  exact ⟨rfl, rfl⟩

/-- Witness for C5: `missing.txt` does not exist in the sample world. -/
theorem CopyFile_unopenable_source_witness :
    (Open unix sampleWorld "missing.txt").1 = .error (.path "open" "missing.txt" .ENOENT) ∧
    (CopyFile unix sampleWorld "missing.txt" "out/copy.txt").1
      = some (.path "open" "missing.txt" .ENOENT) ∧
    (CopyFile unix sampleWorld "missing.txt" "out/copy.txt").2.fs = sampleWorld.fs :=
  ⟨rfl, CopyFile_unopenable_source unix sampleWorld "missing.txt" "out/copy.txt" _ rfl⟩

/-- C9, further counterexample: on Unix, `/mnt/usb/a.txt` and `/home/b.txt` are on
different mounted file systems but have the same (empty) volume name, so `MoveFile` takes
the rename branch. The read/write probe of the source fails with `EACCES`, yet `MoveFile`
returns the `EXDEV` error of `os.Rename`, not the error of the probe. -/
theorem MoveFile_cross_mount_probe_not_made :
    unix.volumeName "/mnt/usb/a.txt" = unix.volumeName "/home/b.txt" ∧
    (OpenFile unix mountsWorldDenied "/mnt/usb/a.txt" O_RDWR 0o666).1
      = .error (.path "open" "/mnt/usb/a.txt" .EACCES) ∧
    (MoveFile unix mountsWorldDenied "/mnt/usb/a.txt" "/home/b.txt").1
      = some (.link "rename" "/mnt/usb/a.txt" "/home/b.txt" .EXDEV) :=
  ⟨rfl, rfl, by decide⟩

/-- C10, further counterexample: on Unix, `/mnt/usb/a.txt` and `/home/b.txt` are on
different mounted file systems but have the same (empty) volume name, so `MoveFile` takes
the rename branch. The probe, the copy and the removal would all succeed, yet `MoveFile`
returns the `EXDEV` error of `os.Rename` instead of success. -/
theorem MoveFile_cross_mount_returns_rename_error :
    unix.volumeName "/mnt/usb/a.txt" = unix.volumeName "/home/b.txt" ∧
    (OpenFile unix mountsWorld "/mnt/usb/a.txt" O_RDWR 0o666).1 = .ok ⟨"/mnt/usb/a.txt"⟩ ∧
    (CopyFile unix mountsWorld "/mnt/usb/a.txt" "/home/b.txt").1 = none ∧
    (Remove unix (CopyFile unix mountsWorld "/mnt/usb/a.txt" "/home/b.txt").2
      "/mnt/usb/a.txt").1 = none ∧
    (MoveFile unix mountsWorld "/mnt/usb/a.txt" "/home/b.txt").1
      = some (.link "rename" "/mnt/usb/a.txt" "/home/b.txt" .EXDEV) :=
  ⟨rfl, rfl, by decide, by decide, by decide⟩

/-- C6, evaluated on the sample world for extraction, where `out/d` is a regular file.
First, `tree.zip` extracted to `out`: creating the directory entry `d/` fails, yet `Unzip`
goes on, extracts the later entry `b.txt` and returns success. Second, `deep.zip` extracted
to `out`: creating the ancestor directory `out/d` of the file entry `d/x.txt` fails and the
process is terminated with status 1 after the error is logged, instead of the error being
returned; the later entry `b.txt` is not extracted. -/
theorem Unzip_directory_creation_failures :
    ((MkdirAll unix extractWorld (unix.join "out" "d/") 0o755).1
        = some (.path "mkdir" "out/d" .ENOTDIR) ∧
      (Unzip unix extractWorld "tree.zip" "out").1 = .returned none ∧
      (Unzip unix extractWorld "tree.zip" "out").2.fs "out/b.txt"
        = some (.file (.bytes [7]) 0o644)) ∧
    ((MkdirAll unix extractWorld "out/d" 0o644).1 = some (.path "mkdir" "out/d" .ENOTDIR) ∧
      (Unzip unix extractWorld "deep.zip" "out").1 = .exited 1 ∧
      (Unzip unix extractWorld "deep.zip" "out").2.stderr = ["mkdir out/d: not a directory"] ∧
      (Unzip unix extractWorld "deep.zip" "out").2.fs "out/b.txt" = none) :=
  ⟨⟨by decide, by decide, rfl⟩, by decide, by decide, by decide, rfl⟩

/-- Extracting `top.zip`, whose entry `a.txt` has no directory part, to `.`: the directory
part of `a.txt` is the empty string, for which `MkdirAll` fails, and the process is
terminated. -/
theorem Unzip_to_current_directory :
    unix.join "." "a.txt" = "a.txt" ∧
    (MkdirAll unix extractWorld "" 0o644).1 = some (.path "mkdir" "" .ENOENT) ∧
    (Unzip unix extractWorld "top.zip" ".").1 = .exited 1 ∧
    (Unzip unix extractWorld "top.zip" ".").2.stderr = ["mkdir : no such file or directory"] :=
  ⟨by decide, by decide, by decide, by decide⟩

/-- C7, counterexample: extracting `evil.zip`, whose entry is named `../etc/passwd`, to
`out` returns success and writes the regular file `etc/passwd`, which does not lie
under `out`. -/
theorem Unzip_writes_outside_dest :
    (Unzip unix extractWorld "evil.zip" "out").1 = .returned none ∧
    unix.join "out" "../etc/passwd" = "etc/passwd" ∧
    extractWorld.fs (unix.resolve "etc/passwd") = none ∧
    (Unzip unix extractWorld "evil.zip" "out").2.fs (unix.resolve "etc/passwd")
      = some (.file (.bytes [6, 6, 6]) 0o644) ∧
    liesUnder "out" (unix.join "out" "../etc/passwd") = false :=
  ⟨by decide, by decide, rfl, rfl, by decide⟩

/-- C8, evaluated on the sample world with a full disk: finalising `out.zip` fails, yet
`ZipFiles` returns success; the output is left as an archive that is not finalised and
cannot be opened as an archive. -/
theorem ZipFiles_drops_finalise_error :
    (ZipWriter.Close unix fullDiskWorld ⟨⟨"out.zip"⟩, []⟩).1
      = some (.path "write" "out.zip" .ENOSPC) ∧
    (ZipFiles unix fullDiskWorld "out.zip" ["a.txt"]).1 = none ∧
    (ZipFiles unix fullDiskWorld "out.zip" ["a.txt"]).2.fs (unix.resolve "out.zip")
      = some (.file (.archive [fileEntry "a.txt" 0o644 [1, 2]] false) 0o644) ∧
    zipOpenReader unix (ZipFiles unix fullDiskWorld "out.zip" ["a.txt"]).2 "out.zip"
      = .error .zipFormat :=
  ⟨by decide, by decide, rfl, rfl⟩

/-- C7, further counterexample (empty destination): extracting `abs.zip`, whose entry has
the absolute name `/tmp/x.txt` and never climbs with `..`, to the empty destination returns
success and writes `/tmp/x.txt`, which does not lie under the destination (the current
directory). -/
theorem Unzip_empty_dest_writes_absolute_name :
    staysInside "/tmp/x.txt" = true ∧
    (Unzip unix slipWorld "abs.zip" "").1 = .returned none ∧
    unix.join "" "/tmp/x.txt" = "/tmp/x.txt" ∧
    slipWorld.fs (unix.resolve "/tmp/x.txt") = none ∧
    (Unzip unix slipWorld "abs.zip" "").2.fs (unix.resolve "/tmp/x.txt")
      = some (.file (.bytes [6, 6, 6]) 0o644) ∧
    liesUnder "" (unix.join "" "/tmp/x.txt") = false :=
  ⟨by decide, by decide, by decide, rfl, rfl, by decide⟩

/-- C7, further counterexample (another platform): where backslash separates, extracting
`back.zip`, whose entry `..\etc\passwd` has no slash and so never climbs as a
slash-separated name, to `out` returns success and writes `etc\passwd`, which does not lie
under `out`. -/
theorem Unzip_backslash_name_escapes :
    staysInside "..\\etc\\passwd" = true ∧
    (Unzip drives backslashWorld "back.zip" "out").1 = .returned none ∧
    drives.join "out" "..\\etc\\passwd" = "etc\\passwd" ∧
    backslashWorld.fs (drives.resolve "etc\\passwd") = none ∧
    (Unzip drives backslashWorld "back.zip" "out").2.fs (drives.resolve "etc\\passwd")
      = some (.file (.bytes [6, 6, 6]) 0o644) ∧
    liesUnderBackslash "out" (drives.join "out" "..\\etc\\passwd") = false :=
  ⟨by decide, by decide, by decide, rfl, rfl, by decide⟩

/-- C7, further counterexample (missing destination): extracting `tool.zip`, whose entry
is `run.sh`, to `new/sub` when neither `new` nor `new/sub` exists returns success and makes
the directory `new`, which does not lie under `new/sub`. -/
theorem Unzip_missing_dest_makes_ancestors :
    staysInside "run.sh" = true ∧
    (Unzip unix slipWorld "tool.zip" "new/sub").1 = .returned none ∧
    slipWorld.fs "new" = none ∧
    (Unzip unix slipWorld "tool.zip" "new/sub").2.fs "new" = some (.dir 0o755) ∧
    (Unzip unix slipWorld "tool.zip" "new/sub").2.fs "new/sub/run.sh"
      = some (.file (.bytes [7]) 0o755) ∧
    liesUnder "new/sub" "new" = false ∧ beginsElems "new" "new/sub" = true :=
  ⟨by decide, by decide, rfl, rfl, rfl, by decide, by decide⟩

/-- C7, amended: on every platform, every name that `Unzip` changes was made for an entry
of the archive: it is the path `filepath.Join(dest, name)` of a file entry, or a new
directory, made at a name that was free, at `filepath.Join(dest, name)` of an entry or at
what precedes one of its separators. On a Unix platform, for every entry whose path
`filepath.Join(dest, name)` is `dest` or lies below it, every name made for that entry lies
under `dest` or is a new directory that is a lexical ancestor of `dest`; and the entries
whose path is `dest` or lies below it include every entry whose name never climbs with `..`
above its starting directory, absolute names included, unless `dest` is the empty string
and the name is absolute. -/
theorem Unzip_stays_under_dest (P : Platform) (w : World) (src dest : String) (r : ZipReader)
    (hopen : zipOpenReader P w src = .ok r) :
    (∀ k, (Unzip P w src dest).2.fs k ≠ w.fs k →
      ∃ e ∈ r.File, madeFor P w (Unzip P w src dest).2 dest e k) ∧
    (P = unix → ∀ e ∈ r.File, liesUnder dest (P.join dest e.header.name) = true →
      ∀ k, madeFor P w (Unzip P w src dest).2 dest e k →
        liesUnder dest k = true ∨
        (w.fs k = none ∧ (∃ m, (Unzip P w src dest).2.fs k = some (.dir m)) ∧
          beginsElems k dest = true)) ∧
    (P = unix → ∀ e ∈ r.File, staysInside e.header.name = true →
      (dest ≠ "" ∨ e.header.name.data.head? ≠ some '/') →
      liesUnder dest (P.join dest e.header.name) = true) := by
  refine ⟨fun k hk => ?_, fun hP e _ hu k hmade => ?_, fun hP e _ hname h => ?_⟩
  · by_cases hfile : ∃ e ∈ r.File, e.header.IsDir = false ∧
        k = P.resolve (P.join dest e.header.name)
    · obtain ⟨e, he, hd, hke⟩ := hfile
      exact ⟨e, he, Or.inl ⟨hd, hke⟩⟩
    · unfold Unzip at hk ⊢
      rw [hopen] at hk ⊢
      simp only at hk ⊢
      have hframe := unzipLoop_frame P r dest r.File w k
        (fun e he hd hkt => hfile ⟨e, he, hd, hkt⟩)
      obtain ⟨e, he, hch⟩ := unzipLoop_changes P r dest r.File w k hk
      rcases hframe with a | ⟨hfree, hnew⟩
      · exact absurd a hk
      · rcases hch with ⟨hd, hkt⟩ | ⟨q, hq, hcut, hkq⟩
        · exact absurd ⟨e, he, hd, hkt⟩ hfile
        · exact ⟨e, he, Or.inr ⟨hfree, hnew, q, hq,
            (isCutPrefix_iff P.pathSeparator q _).2 hcut, hkq⟩⟩
  · subst hP
    have hu1 : liesUnder dest (Join dest e.header.name) = true := hu
    rcases hmade with ⟨_, hke⟩ | ⟨hfree, hnew, q, hq, hcut, hkq⟩
    · left
      rw [hke]
      show liesUnder dest (Clean (Join dest e.header.name)) = true
      rw [liesUnder_Clean]
      exact hu1
    · have hcut1 : q = Join dest e.header.name ∨
          ∃ rest, (Join dest e.header.name).data = q.data ++ '/' :: rest :=
        (isCutPrefix_iff '/' q _).1 hcut
      have hk1 : k = Clean q := hkq
      have hlex : liesUnder dest (Clean q) = true ∨ beginsElems (Clean q) dest = true := by
        rcases Join_cleaned dest e.header.name with hJ | ⟨t, hJ⟩
        · rw [hJ] at hcut1
          rcases hcut1 with h1 | ⟨rest, h1⟩
          · exact absurd h1 hq
          · have h0 : ("" : String).data = [] := rfl
            rw [h0] at h1
            simp at h1
        · rw [hJ] at hcut1 hu1
          exact under_or_above dest t q hu1 hq hcut1
      rw [← hk1] at hlex
      rcases hlex with h1 | h1
      · exact Or.inl h1
      · exact Or.inr ⟨hfree, hnew, h1⟩
  · subst hP
    exact staysInside_under dest e.header.name hname h

/-- Witness for C7: `mixed.zip`, with the directory entry `sub/` and the file entries
`a/../b.txt`, `/opt/tool` and `../out/c.txt`, extracted to `out` on Unix. -/
theorem Unzip_stays_under_dest_witness :
    zipOpenReader unix slipWorld "mixed.zip"
      = .ok ⟨"mixed.zip", [dirEntry "sub/" 0o755, fileEntry "a/../b.txt" 0o644 [1],
          fileEntry "/opt/tool" 0o755 [2], fileEntry "../out/c.txt" 0o644 [3]]⟩ ∧
    (Unzip unix slipWorld "mixed.zip" "out").1 = .returned none ∧
    (Unzip unix slipWorld "mixed.zip" "out").2.fs "out/sub" = some (.dir 0o755) ∧
    (Unzip unix slipWorld "mixed.zip" "out").2.fs "out/b.txt"
      = some (.file (.bytes [1]) 0o644) ∧
    (Unzip unix slipWorld "mixed.zip" "out").2.fs "out/opt" = some (.dir 0o755) ∧
    (Unzip unix slipWorld "mixed.zip" "out").2.fs "out/opt/tool"
      = some (.file (.bytes [2]) 0o755) ∧
    (Unzip unix slipWorld "mixed.zip" "out").2.fs "out/c.txt"
      = some (.file (.bytes [3]) 0o644) ∧
    (staysInside "../out/c.txt" = false ∧
      liesUnder "out" (unix.join "out" "../out/c.txt") = true) ∧
    (∀ e ∈ [dirEntry "sub/" 0o755, fileEntry "a/../b.txt" 0o644 [1],
        fileEntry "/opt/tool" 0o755 [2], fileEntry "../out/c.txt" 0o644 [3]],
      liesUnder "out" (unix.join "out" e.header.name) = true) ∧
    ∀ k, (Unzip unix slipWorld "mixed.zip" "out").2.fs k ≠ slipWorld.fs k →
      (∃ e ∈ [dirEntry "sub/" 0o755, fileEntry "a/../b.txt" 0o644 [1],
          fileEntry "/opt/tool" 0o755 [2], fileEntry "../out/c.txt" 0o644 [3]],
        madeFor unix slipWorld (Unzip unix slipWorld "mixed.zip" "out").2 "out" e k) ∧
      (liesUnder "out" k = true ∨
        (slipWorld.fs k = none ∧
          (∃ m, (Unzip unix slipWorld "mixed.zip" "out").2.fs k = some (.dir m)) ∧
          beginsElems k "out" = true)) :=
  have h := Unzip_stays_under_dest unix slipWorld "mixed.zip" "out"
    ⟨"mixed.zip", [dirEntry "sub/" 0o755, fileEntry "a/../b.txt" 0o644 [1],
      fileEntry "/opt/tool" 0o755 [2], fileEntry "../out/c.txt" 0o644 [3]]⟩ rfl
  have hall : ∀ e ∈ [dirEntry "sub/" 0o755, fileEntry "a/../b.txt" 0o644 [1],
      fileEntry "/opt/tool" 0o755 [2], fileEntry "../out/c.txt" 0o644 [3]],
      liesUnder "out" (unix.join "out" e.header.name) = true := by decide
  ⟨rfl, by decide, rfl, rfl, rfl, rfl, rfl, ⟨by decide, by decide⟩, hall,
    fun k hk =>
      match h.1 k hk with
      | ⟨e, he, hmade⟩ => ⟨⟨e, he, hmade⟩, h.2.1 rfl e he (hall e he) k hmade⟩⟩

/-- C1, counterexample: `a.txt` (bytes 1, 2) and `d/a.txt` (byte 3) have the same base name.
`ZipFiles` of the two into `z.zip` and `Unzip` of `z.zip` to `out` both succeed, and
afterwards no file at or below `out` has the bytes of `a.txt`. -/
theorem round_trip_same_base_name :
    (ZipFiles unix sampleWorld "z.zip" ["a.txt", "d/a.txt"]).1 = none ∧
    (Unzip unix (ZipFiles unix sampleWorld "z.zip" ["a.txt", "d/a.txt"]).2 "z.zip" "out").1
      = .returned none ∧
    sampleWorld.fs (unix.resolve "a.txt") = some (.file (.bytes [1, 2]) 0o644) ∧
    ¬ ∃ k m, liesUnder "out" k = true ∧
      (Unzip unix (ZipFiles unix sampleWorld "z.zip" ["a.txt", "d/a.txt"]).2 "z.zip" "out").2.fs k
        = some (.file (.bytes [1, 2]) m) := by
  refine ⟨by decide, by decide, rfl, ?_⟩
  rintro ⟨k, m, hk, hf⟩
  have hopen : zipOpenReader unix (ZipFiles unix sampleWorld "z.zip" ["a.txt", "d/a.txt"]).2
      "z.zip" = .ok ⟨"z.zip", [fileEntry "a.txt" 0o644 [1, 2], fileEntry "a.txt" 0o600 [3]]⟩ :=
    rfl
  by_cases h1 : k = "out/a.txt"
  · subst h1
    have : (Unzip unix (ZipFiles unix sampleWorld "z.zip" ["a.txt", "d/a.txt"]).2
        "z.zip" "out").2.fs "out/a.txt" = some (.file (.bytes [3]) 0o644) := rfl
    rw [this] at hf
    simp at hf
  · have hframe := unzipLoop_frame unix
      ⟨"z.zip", [fileEntry "a.txt" 0o644 [1, 2], fileEntry "a.txt" 0o600 [3]]⟩ "out"
      [fileEntry "a.txt" 0o644 [1, 2], fileEntry "a.txt" 0o600 [3]]
      (ZipFiles unix sampleWorld "z.zip" ["a.txt", "d/a.txt"]).2 k (by
        intro e he _
        have ht : target unix "out" e = "out/a.txt" := by
          simp only [List.mem_cons, List.mem_singleton, List.not_mem_nil, or_false] at he
          rcases he with he | he <;> subst he <;> decide
        rw [ht]
        exact h1)
    have hU : Unzip unix (ZipFiles unix sampleWorld "z.zip" ["a.txt", "d/a.txt"]).2 "z.zip" "out"
        = unzipLoop unix
          ⟨"z.zip", [fileEntry "a.txt" 0o644 [1, 2], fileEntry "a.txt" 0o600 [3]]⟩ "out"
          (ZipFiles unix sampleWorld "z.zip" ["a.txt", "d/a.txt"]).2
          [fileEntry "a.txt" 0o644 [1, 2], fileEntry "a.txt" 0o600 [3]] := by
      unfold Unzip
      rw [hopen]
    rw [hU] at hf
    have hz : (ZipFiles unix sampleWorld "z.zip" ["a.txt", "d/a.txt"]).2.fs k
        = some (.file (.bytes [1, 2]) m) := by
      rcases hframe with a | ⟨_, m1, b⟩
      · rw [← a, hf]
      · rw [hf] at b
        simp at b
    by_cases h2 : k = "z.zip"
    · subst h2
      exact absurd hk (by decide)
    · have hzip := (ZipFiles_ok unix sampleWorld "z.zip" ["a.txt", "d/a.txt"] _ (by decide)
        (by decide) (by decide) hopen).2.2.1 k h2
      rw [hzip] at hz
      have hs : k = "a.txt" := by
        simp only [sampleWorld, worldOf, sampleFs] at hz
        split_ifs at hz with c1 c2 c3 c4 c5
        · exact c1
        all_goals simp at hz
      subst hs
      exact absurd hk (by decide)

/-- C1, further counterexample (permission bits): `p.txt` has mode 0666 and the umask is
022. `ZipFiles` of it into `z.zip` and `Unzip` of `z.zip` to `out` both succeed, the file
is extracted with mode 0644, and no file at or below `out` has the bytes of `p.txt` with
its permission bits. -/
theorem round_trip_loses_permission_bits :
    (ZipFiles unix modeWorld "z.zip" ["p.txt"]).1 = none ∧
    (Unzip unix (ZipFiles unix modeWorld "z.zip" ["p.txt"]).2 "z.zip" "out").1
      = .returned none ∧
    modeWorld.fs (unix.resolve "p.txt") = some (.file (.bytes [5]) 0o666) ∧
    (Unzip unix (ZipFiles unix modeWorld "z.zip" ["p.txt"]).2 "z.zip" "out").2.fs "out/p.txt"
      = some (.file (.bytes [5]) 0o644) ∧
    ¬ ∃ k, liesUnder "out" k = true ∧
      (Unzip unix (ZipFiles unix modeWorld "z.zip" ["p.txt"]).2 "z.zip" "out").2.fs k
        = some (.file (.bytes [5]) 0o666) := by
  refine ⟨by decide, by decide, rfl, rfl, ?_⟩
  rintro ⟨k, hk, hf⟩
  have hopen : zipOpenReader unix (ZipFiles unix modeWorld "z.zip" ["p.txt"]).2 "z.zip"
      = .ok ⟨"z.zip", [fileEntry "p.txt" 0o666 [5]]⟩ := rfl
  by_cases h1 : k = "out/p.txt"
  · subst h1
    have : (Unzip unix (ZipFiles unix modeWorld "z.zip" ["p.txt"]).2 "z.zip" "out").2.fs
        "out/p.txt" = some (.file (.bytes [5]) 0o644) := rfl
    rw [this] at hf
    simp at hf
  · by_cases h2 : k = "z.zip"
    · subst h2
      exact absurd hk (by decide)
    · have hz := round_trip_elsewhere unix modeWorld "z.zip" ["p.txt"] "out" _ k _ _ hopen
        (by
          intro e he _
          simp only [List.mem_singleton] at he
          subst he
          exact h1) h2 hf
      have hs : k = "p.txt" := by
        simp only [modeWorld, worldOf, modeFs] at hz
        split_ifs at hz with c1 c2
        · exact c1
        all_goals simp at hz
      subst hs
      exact absurd hk (by decide)

/-- C1, further counterexample (the archive as an input): `ZipFiles` of `a.txt` (bytes 1, 2)
into `a.txt` itself and `Unzip` of it to `out` both succeed, and afterwards no file at or
below `out` has the bytes that `a.txt` had. -/
theorem round_trip_archive_as_input :
    sampleWorld.fs (unix.resolve "a.txt") = some (.file (.bytes [1, 2]) 0o644) ∧
    (ZipFiles unix sampleWorld "a.txt" ["a.txt"]).1 = none ∧
    (Unzip unix (ZipFiles unix sampleWorld "a.txt" ["a.txt"]).2 "a.txt" "out").1
      = .returned none ∧
    ¬ ∃ k m, liesUnder "out" k = true ∧
      (Unzip unix (ZipFiles unix sampleWorld "a.txt" ["a.txt"]).2 "a.txt" "out").2.fs k
        = some (.file (.bytes [1, 2]) m) := by
  refine ⟨rfl, by decide, by decide, ?_⟩
  rintro ⟨k, m, hk, hf⟩
  have hopen : zipOpenReader unix (ZipFiles unix sampleWorld "a.txt" ["a.txt"]).2 "a.txt"
      = .ok ⟨"a.txt", [⟨⟨"a.txt", 0o644, false, Deflate⟩,
          .archive [⟨⟨"a.txt", 0o644, false, Deflate⟩, .bytes []⟩] false⟩]⟩ := rfl
  by_cases h1 : k = "out/a.txt"
  · subst h1
    have : (Unzip unix (ZipFiles unix sampleWorld "a.txt" ["a.txt"]).2 "a.txt" "out").2.fs
        "out/a.txt" = some (.file
          (.archive [⟨⟨"a.txt", 0o644, false, Deflate⟩, .bytes []⟩] false) 0o644) := rfl
    rw [this] at hf
    simp at hf
  · by_cases h2 : k = "a.txt"
    · subst h2
      exact absurd hk (by decide)
    · have hz := round_trip_elsewhere unix sampleWorld "a.txt" ["a.txt"] "out" _ k _ _ hopen
        (by
          intro e he _
          simp only [List.mem_singleton] at he
          subst he
          exact h1) h2 hf
      simp only [sampleWorld, worldOf, sampleFs] at hz
      split_ifs at hz <;> simp at hz

/-- C1, amended: when `ZipFiles(archive, F)` and then `Unzip(archive, D)` succeed, the
archive is not one of the inputs, no base name of an input ends with a slash, and any two
inputs with the same target `filepath.Join(D, base name)` have the same content, then every
file of F was a regular file and its target `filepath.Join(D, base name)` is a regular file
with the same content; on a Unix platform that target lies under D, unless the base name
is `..`. -/
theorem ZipFiles_Unzip_round_trip (P : Platform) (w : World) (archive : String)
    (files : List String) (dest : String) (hzip : (ZipFiles P w archive files).1 = none)
    (hunzip : (Unzip P (ZipFiles P w archive files).2 archive dest).1 = .returned none)
    (harch : ∀ f ∈ files, P.resolve f ≠ P.resolve archive)
    (hbase : ∀ f ∈ files, endsWithSlash (P.base f) = false)
    (hsame : ∀ f ∈ files, ∀ g ∈ files,
      P.resolve (P.join dest (P.base f)) = P.resolve (P.join dest (P.base g)) →
      dataAt w (P.resolve f) = dataAt w (P.resolve g)) :
    ∀ f ∈ files,
      (∃ d, dataAt w (P.resolve f) = some d ∧
        dataAt (Unzip P (ZipFiles P w archive files).2 archive dest).2
          (P.resolve (P.join dest (P.base f))) = some d) ∧
      (P = unix → P.base f ≠ ".." → liesUnder dest (P.join dest (P.base f)) = true) := by
  refine fun f hf => ⟨?_, fun hP hdd => ?_⟩
  swap
  · subst hP
    exact Base_under dest f (hbase f hf) hdd
  revert f
  unfold Unzip at hunzip ⊢
  cases hO : zipOpenReader P (ZipFiles P w archive files).2 archive with
  | error err => simp [hO] at hunzip
  | ok r =>
    simp only [hO] at hunzip ⊢
    obtain ⟨hfiles, hr, _, _⟩ := ZipFiles_ok P w archive files r hzip harch hbase hO
    have htarget : ∀ f, target P dest (entryOf P w f) = P.resolve (P.join dest (P.base f)) :=
      fun f => by simp [target, entryOf_name]
    have hentry : ∀ g ∈ files, ∃ dg mg, w.fs (P.resolve g) = some (.file dg mg) ∧
        entryOf P w g = entryFor P g dg mg ∧ dataAt w (P.resolve g) = some dg := by
      intro g hg
      obtain ⟨dg, mg, h1⟩ := hfiles g hg
      refine ⟨dg, mg, h1, ?_, ?_⟩
      · unfold entryOf
        rw [h1]
      · unfold dataAt
        rw [h1]
    have hnotdir : ∀ e ∈ r.File, e.header.IsDir = false := by
      intro e he
      rw [hr] at he
      obtain ⟨g, hg, rfl⟩ := List.mem_map.1 he
      obtain ⟨dg, mg, _, h2, _⟩ := hentry g hg
      rw [h2]
      exact entryFor_not_dir P g dg mg (hbase g hg)
    intro f hf
    obtain ⟨d, m, _, he, hd⟩ := hentry f hf
    refine ⟨d, hd, ?_⟩
    refine unzipLoop_data P r dest _ d r.File _ _ rfl hunzip hnotdir ?_ ?_
    · intro e hmem ht
      rw [hr] at hmem
      obtain ⟨g, hg, rfl⟩ := List.mem_map.1 hmem
      obtain ⟨dg, mg, _, h2, h3⟩ := hentry g hg
      rw [htarget] at ht
      have := hsame g hg f hf ht
      rw [h3, hd] at this
      rw [h2]
      simp only [Option.some.injEq] at this
      exact this
    · refine Or.inr ⟨entryOf P w f, ?_, htarget f⟩
      rw [hr]
      exact List.mem_map_of_mem _ hf

/-- Witness for C1: `a.txt`, `d/b.txt` and `a.txt` once more, zipped into `z.zip` and
extracted to `out`. -/
theorem ZipFiles_Unzip_round_trip_witness :
    (ZipFiles unix sampleWorld "z.zip" ["a.txt", "d/b.txt", "a.txt"]).1 = none ∧
    (Unzip unix (ZipFiles unix sampleWorld "z.zip" ["a.txt", "d/b.txt", "a.txt"]).2
      "z.zip" "out").1 = .returned none ∧
    (Unzip unix (ZipFiles unix sampleWorld "z.zip" ["a.txt", "d/b.txt", "a.txt"]).2
      "z.zip" "out").2.fs "out/a.txt" = some (.file (.bytes [1, 2]) 0o644) ∧
    ∀ f ∈ ["a.txt", "d/b.txt", "a.txt"],
      (∃ d, dataAt sampleWorld (unix.resolve f) = some d ∧
        dataAt (Unzip unix (ZipFiles unix sampleWorld "z.zip" ["a.txt", "d/b.txt", "a.txt"]).2
          "z.zip" "out").2 (unix.resolve (unix.join "out" (unix.base f))) = some d) ∧
      liesUnder "out" (unix.join "out" (unix.base f)) = true :=
  have h := ZipFiles_Unzip_round_trip unix sampleWorld "z.zip" ["a.txt", "d/b.txt", "a.txt"]
    "out" (by decide) (by decide) (by decide) (by decide) (by
      intro f hf g hg h
      simp only [List.mem_cons, List.mem_singleton, List.not_mem_nil, or_false] at hf hg
      rcases hf with rfl | rfl | rfl <;> rcases hg with rfl | rfl | rfl <;>
        first
        | rfl
        | exact absurd h (by decide))
  have hdd : ∀ f ∈ ["a.txt", "d/b.txt", "a.txt"], unix.base f ≠ ".." := by decide
  ⟨by decide, by decide, rfl, fun f hf => ⟨(h f hf).1, (h f hf).2 rfl (hdd f hf)⟩⟩

end LocalFiles
